import Mathlib

/-!
Verification of the rate-limited task-queue core (`lol/network.py`, `lol/api.py`).

Timestamps are integers (the code measures time as `math.ceil(time.time())`,
an arbitrary-precision Python integer).  Python `None` becomes `Option`,
the mutable objects become explicit state passing, and a construction-time
`AssertionError` (or any other uncaught exception) becomes `Option.none`
in the result of the corresponding function.

The embedding mirrors the source, including:
  * the truthiness test `if self._start` in `RateCounter._maybe_reset`,
    which is false both for `None` and for the integer `0`;
  * the short-circuit evaluation of `all(...)` in `RateCounterPool.can_add`,
    which stops mutating counters at the first failing one;
  * `max(...)` over an empty generator in `RateCounterPool.time_until_ready`,
    which raises `ValueError` (modelled as `none`);
  * Python list slicing `tasks[:k]` with a possibly negative `k` in
    `TaskQueue.put`.
-/

/-- State of `network.RateCounter`: one rate limit `(limit, interval)` with
its current window (`count`, `start`); `start = none` models `None`. -/
structure RateCounter where
  limit : Int
  interval : Int
  count : Int
  start : Option Int
deriving DecidableEq

/-- `RateCounter._maybe_reset(now)`: resets the window iff `self._start` is
truthy (set and nonzero) and `now - self._start >= self._interval`. -/
def RateCounter.maybe_reset (c : RateCounter) (now : Int) : RateCounter :=
  match c.start with
  | some s => if s ≠ 0 ∧ c.interval ≤ now - s then { c with start := some now, count := 0 } else c
  | none => c

/-- `RateCounter.can_add(now)`: applies `_maybe_reset` (mutation) and returns
`count < limit`. -/
def RateCounter.can_add (c : RateCounter) (now : Int) : RateCounter × Bool :=
  let c2 := c.maybe_reset now
  (c2, decide (c2.count < c2.limit))

/-- `RateCounter.time_until_ready(now)`: applies `_maybe_reset`, returns `-1`
when uninitialized or under the limit, else `interval - (now - start)`. -/
def RateCounter.time_until_ready (c : RateCounter) (now : Int) : RateCounter × Int :=
  let c2 := c.maybe_reset now
  match c2.start with
  | none => (c2, -1)
  | some s => if c2.count < c2.limit then (c2, -1) else (c2, c2.interval - (now - s))

/-- `RateCounter.increment(now)`: sets `start := now` when unset, applies
`_maybe_reset`, then increments `count`. -/
def RateCounter.increment (c : RateCounter) (now : Int) : RateCounter :=
  let c1 := match c.start with
    | none => { c with start := some now }
    | some _ => c
  let c2 := c1.maybe_reset now
  { c2 with count := c2.count + 1 }

/-- `RateCounterPool.can_add(now)`: `all(x.can_add(now) for x in ...)`.
The generator short-circuits: counters after the first failing one are
not touched. Returns the updated counters and the boolean. -/
def RateCounterPool.can_add : List RateCounter → Int → List RateCounter × Bool
  | [], _ => ([], true)
  | c :: cs, now =>
    let p := c.can_add now
    if p.2 then
      let q := RateCounterPool.can_add cs now
      (p.1 :: q.1, q.2)
    else (p.1 :: cs, false)

/-- `RateCounterPool.time_until_ready(now)` up to the final `> 0` test:
`max(x.time_until_ready(now) for x in ...)`.  The `max` of an empty
generator raises `ValueError`, modelled as `none`. -/
def RateCounterPool.max_ready : List RateCounter → Int → Option (List RateCounter × Int)
  | [], _ => none
  | [c], now =>
    let p := c.time_until_ready now
    some ([p.1], p.2)
  | c :: c2 :: cs, now =>
    let p := c.time_until_ready now
    match RateCounterPool.max_ready (c2 :: cs) now with
    | some q => some (p.1 :: q.1, max p.2 q.2)
    | none => none

/-- `RateCounterPool.increment(now)`: increments every member counter. -/
def RateCounterPool.increment (cs : List RateCounter) (now : Int) : List RateCounter :=
  cs.map (fun c => c.increment now)

/-- The `network.queue_status` enum. -/
inductive queue_status where
  | available
  | unavailable
  | empty
  | not_started
deriving DecidableEq

/-- State of `network.TaskQueue`: FIFO task list, optional capacity, and the
rate-counter pool. -/
structure TaskQueue (α : Type) where
  queue : List α
  queue_limit : Option Int
  rate_counters : List RateCounter
deriving DecidableEq

/-- Python list slicing `l[:k]` for an arbitrary integer `k`: a negative `k`
counts from the end of the list. -/
def pySliceTo {α : Type} (l : List α) (k : Int) : List α :=
  if 0 ≤ k then l.take k.toNat else l.take ((l.length : Int) + k).toNat

/-- `TaskQueue.put(tasks)`: with no `queue_limit` appends all tasks and
returns `len(tasks)`; otherwise appends `tasks[:queue_limit - len(queue)]`
and returns the number appended. -/
def TaskQueue.put {α : Type} (q : TaskQueue α) (tasks : List α) : TaskQueue α × Nat :=
  match q.queue_limit with
  | none => ({ q with queue := q.queue ++ tasks }, tasks.length)
  | some lim =>
    let truncated := pySliceTo tasks (lim - (q.queue.length : Int))
    ({ q with queue := q.queue ++ truncated }, truncated.length)

/-- `TaskQueue.status()` at clock reading `now`.  The result is the updated
queue, and `none` in place of an uncaught exception (the `max` of an empty
pool); otherwise the status with the optional `ttl` second component. -/
def TaskQueue.status {α : Type} (q : TaskQueue α) (now : Int) :
    TaskQueue α × Option (queue_status × Option Int) :=
  let p := RateCounterPool.can_add q.rate_counters now
  if p.2 && !q.queue.isEmpty then
    ({ q with rate_counters := p.1 }, some (queue_status.available, none))
  else if q.queue.isEmpty then
    ({ q with rate_counters := p.1 }, some (queue_status.empty, none))
  else
    match RateCounterPool.max_ready p.1 now with
    | none => ({ q with rate_counters := p.1 }, none)
    | some r =>
      if 0 < r.2 then ({ q with rate_counters := r.1 }, some (queue_status.unavailable, some r.2))
      else ({ q with rate_counters := r.1 }, some (queue_status.not_started, none))

/-- `TaskQueue.get()` at clock reading `now`: if the pool admits and the queue
is non-empty, increments every counter and pops the head; else returns
nothing (the partially reset counters from `can_add` are kept either way). -/
def TaskQueue.get {α : Type} (q : TaskQueue α) (now : Int) : TaskQueue α × Option α :=
  let p := RateCounterPool.can_add q.rate_counters now
  if p.2 && !q.queue.isEmpty then
    (⟨q.queue.tail, q.queue_limit, RateCounterPool.increment p.1 now⟩, q.queue.head?)
  else
    ({ q with rate_counters := p.1 }, none)

/-- One rule `(num_requests, num_seconds)` is modelled as a Python tuple of
integers, i.e. a `List Int`; the constructor validity check is
`len(x) == 2 and x[0] > 0 and x[1] > 0` (short-circuit, so out-of-range
indexing never happens). -/
def ruleOK (x : List Int) : Bool :=
  x.length == 2 && decide (0 < x.getD 0 0) && decide (0 < x.getD 1 0)

/-- The `assert all(...)` guard of `RateCounterPool.__init__` (and of the
facade constructors). -/
def rulesValid (rules : List (List Int)) : Bool :=
  rules.all ruleOK

/-- `RateCounter(x[0], x[1])` for a validated rule. -/
def mkRateCounter (x : List Int) : RateCounter :=
  ⟨x.getD 0 0, x.getD 1 0, 0, none⟩

/-- `TaskQueue.__init__`: fails (AssertionError, via `RateCounterPool`) iff
some rule is malformed; otherwise the queue starts empty with one fresh
counter per rule. -/
def TaskQueue.mkNew (α : Type) (rate_limits : List (List Int)) (queue_limit : Option Int) :
    Option (TaskQueue α) :=
  if rulesValid rate_limits then some ⟨[], queue_limit, rate_limits.map mkRateCounter⟩
  else none

/-- State of the `APITaskQueue` facade: the inner queue, the credential list,
`need_key` and the rotation cursor (0 when unused). -/
structure APITaskQueue (K α : Type) where
  queue : TaskQueue α
  api_keys : List K
  need_key : Bool
  key_counter : Nat
deriving DecidableEq

/-- The scaling step of `APITaskQueue.__init__`: with more than one
credential every rule becomes `(x[0] * len(api_keys), x[1])`. -/
def scaleLimits (k : Nat) (rate_limits : List (List Int)) : List (List Int) :=
  if 1 < k then rate_limits.map (fun x => [x.getD 0 0 * (k : Int), x.getD 1 0])
  else rate_limits

/-- `APITaskQueue.__init__`: asserts rule validity, scales the rules, builds
the inner `TaskQueue`, and builds the `FunctionalThreadPool` whose
constructor asserts `num_threads > 0` (its `callable(fn)` assert always
passes).  Any failing assert is `none`. -/
def APITaskQueue.mkNew (K α : Type) (api_keys : List K) (rate_limits : List (List Int))
    (queue_limit : Option Int) (num_threads : Int) : Option (APITaskQueue K α) :=
  if rulesValid rate_limits then
    let scaled := scaleLimits api_keys.length rate_limits
    match TaskQueue.mkNew α scaled queue_limit with
    | none => none
    | some q =>
      if 0 < num_threads then some ⟨q, api_keys, decide (0 < api_keys.length), 0⟩
      else none
  else none

/-- `APITaskQueue._check_and_run` (identical in `network.py` and `api.py`),
given a clock reading at which a worker attempts `self._queue.get`: when a
task is obtained and `need_key` holds, the current credential is read and
the cursor advances by `(key_counter + 1) % len(api_keys)`; the result
carries the dequeued task and the credential injected into its invocation. -/
def APITaskQueue.check_and_run {K α : Type} (st : APITaskQueue K α) (now : Int) :
    APITaskQueue K α × Option (α × Option K) :=
  let p := st.queue.get now
  match p.2 with
  | none => ({ st with queue := p.1 }, none)
  | some t =>
    if st.need_key then
      ({ st with queue := p.1, key_counter := (st.key_counter + 1) % st.api_keys.length },
        some (t, st.api_keys.get? st.key_counter))
    else ({ st with queue := p.1 }, some (t, none))

/-- Runs `_check_and_run` once per clock reading of `nows` and records, for
each attempt that dequeued a task, the credential injected into that
invocation (failed attempts — a racing worker found the queue empty or
rate-gated — record nothing). -/
def runWorkersAt {K α : Type} (st : APITaskQueue K α) : List Int → List (Option K)
  | [] => []
  | now :: rest =>
    let p := st.check_and_run now
    match p.2 with
    | some r => r.2 :: runWorkersAt p.1 rest
    | none => runWorkersAt p.1 rest

/-- The number of attempts of `nows` that actually dequeued a task. -/
def dequeuedCount {K α : Type} (st : APITaskQueue K α) : List Int → Nat
  | [] => 0
  | now :: rest =>
    let p := st.check_and_run now
    match p.2 with
    | some _ => dequeuedCount p.1 rest + 1
    | none => dequeuedCount p.1 rest

/-- One externally invokable operation on a `TaskQueue`; `get` and `status`
carry the clock reading `math.ceil(time.time())` observed during the call. -/
inductive Op (α : Type) where
  | put (tasks : List α)
  | get (now : Int)
  | status (now : Int)
deriving DecidableEq

/-- The state transition of one operation. -/
def TaskQueue.step {α : Type} (q : TaskQueue α) : Op α → TaskQueue α
  | Op.put ts => (q.put ts).1
  | Op.get n => (q.get n).1
  | Op.status n => (q.status n).1

/-- Runs a trace of operations. -/
def runOps {α : Type} : TaskQueue α → List (Op α) → TaskQueue α
  | q, [] => q
  | q, op :: rest => runOps (q.step op) rest

/-- The timestamps of the successful `get` calls of a trace, in trace order. -/
def runEvents {α : Type} : TaskQueue α → List (Op α) → List Int
  | _, [] => []
  | q, Op.put ts :: rest => runEvents (q.put ts).1 rest
  | q, Op.get n :: rest =>
    let p := q.get n
    match p.2 with
    | some _ => n :: runEvents p.1 rest
    | none => runEvents p.1 rest
  | q, Op.status n :: rest => runEvents (q.status n).1 rest

/-- `opsLB tb ops`: every clock reading in `ops` is `≥ tb` and the readings
are non-decreasing along the trace. -/
def opsLB {α : Type} (tb : Int) : List (Op α) → Bool
  | [] => true
  | Op.put _ :: rest => opsLB tb rest
  | Op.get n :: rest => decide (tb ≤ n) && opsLB n rest
  | Op.status n :: rest => decide (tb ≤ n) && opsLB n rest

/-- The greatest lower bound for clock readings after running `ops`, starting
from the bound `tb`: the last clock reading of the trace (or `tb` when the
trace reads no clock). -/
def opsLast {α : Type} (tb : Int) : List (Op α) → Int
  | [] => tb
  | Op.put _ :: rest => opsLast tb rest
  | Op.get n :: rest => opsLast n rest
  | Op.status n :: rest => opsLast n rest

/-- Number of elements of `es` lying in the half-open window `[a, a + T)`. -/
def cntIn (a T : Int) (es : List Int) : Nat :=
  es.countP (fun t => decide (a ≤ t) && decide (t < a + T))

/-- All timestamps of a list of admission blocks (each block is a window
start paired with the times admitted in that window). -/
def blockTimes (bs : List (Int × List Int)) : List Int :=
  (bs.map Prod.snd).flatten

/-- Well-formed admission-block list, most recent window first: each block
holds at most `N` times, all at or after its window start; consecutive
window starts are at least `T` apart, and every time of the older block
precedes the newer window start. -/
def RBlocksOK (T N : Int) : List (Int × List Int) → Prop
  | [] => True
  | [(s, ts)] => (ts.length : Int) ≤ N ∧ ∀ t ∈ ts, s ≤ t
  | (s, ts) :: (s2, ts2) :: rest =>
    ((ts.length : Int) ≤ N ∧ ∀ t ∈ ts, s ≤ t) ∧
    s2 + T ≤ s ∧ (∀ t ∈ ts2, t < s) ∧ RBlocksOK T N ((s2, ts2) :: rest)

/-- Ghost decomposition tying a counter's state to the multiset of successful
`get` timestamps `es`: the events split into the current window `cur`
(whose size is exactly `count`) and the completed windows `past`, forming a
well-formed block list; `tb` is a lower bound for all future clock
readings. -/
def CtrBlocks (c : RateCounter) (es : List Int) (tb : Int) : Prop :=
  0 < c.limit ∧ 0 < c.interval ∧
  match c.start with
  | none => es = [] ∧ c.count = 0
  | some s => ∃ cur past,
      es.Perm (cur ++ blockTimes past) ∧
      c.count = (cur.length : Int) ∧
      RBlocksOK c.interval c.limit ((s, cur) :: past) ∧
      s ≤ tb ∧
      (∀ t ∈ cur, s ≠ 0 → t - s < c.interval)

/-- The counter admits at `now`: after the lazy expiry reset its count is
below its limit (the value computed by `RateCounter.can_add`). -/
def rcAdmits (c : RateCounter) (now : Int) : Prop :=
  (c.maybe_reset now).count < (c.maybe_reset now).limit

/-- The counter's window is expired at `now` in the sense actually tested by
`_maybe_reset`: started, started at a nonzero time, and `now - start`
reaches the interval. -/
def rcExpired (c : RateCounter) (now : Int) : Prop :=
  ∃ s, c.start = some s ∧ s ≠ 0 ∧ c.interval ≤ now - s

/-- The reset counter: count cleared, window restarted at `now`. -/
def rcReset (c : RateCounter) (now : Int) : RateCounter :=
  { c with start := some now, count := 0 }

/-- Per-counter invariant of states reachable under strictly positive,
non-decreasing clock readings bounded by `tb`: positive configuration,
count within `[0, limit]`, a positive count means the window started, and
a started window started at a positive time not after `tb`. -/
def PosInvC (c : RateCounter) (tb : Int) : Prop :=
  0 < c.limit ∧ 0 < c.interval ∧ 0 ≤ c.count ∧ c.count ≤ c.limit ∧
  (c.count ≠ 0 → c.start ≠ none) ∧
  (∀ s, c.start = some s → 0 < s ∧ s ≤ tb)

/-- Pool-level reachability invariant for positive traces. -/
def PosInvQ {α : Type} (q : TaskQueue α) (tb : Int) : Prop :=
  ∀ c ∈ q.rate_counters, PosInvC c tb

/-- The `(limit, interval)` signature of a counter pool; preserved by every
operation. -/
def ctrSig (cs : List RateCounter) : List (Int × Int) :=
  cs.map (fun c => (c.limit, c.interval))

/-- Queue-level ghost invariant for the sliding-window analysis: every
counter of the pool carries a block decomposition of the successful `get`
timestamps `es`. -/
def TQInv {α : Type} (q : TaskQueue α) (es : List Int) (tb : Int) : Prop :=
  ∀ c ∈ q.rate_counters, CtrBlocks c es tb

/-! ### Basic lemmas about the rate-counter pool -/

theorem maybe_reset_cases (c : RateCounter) (now : Int) :
    c.maybe_reset now = c ∨ (rcExpired c now ∧ c.maybe_reset now = rcReset c now) := by
  cases hs : c.start with
  | none => left; simp [RateCounter.maybe_reset, hs]
  | some s =>
    by_cases hc : s ≠ 0 ∧ c.interval ≤ now - s
    · right
      refine ⟨⟨s, hs, hc.1, hc.2⟩, ?_⟩
      simp [RateCounter.maybe_reset, hs, hc, rcReset]
    · left; simp [RateCounter.maybe_reset, hs, hc]

theorem maybe_reset_of_expired (c : RateCounter) (now : Int) (h : rcExpired c now) :
    c.maybe_reset now = rcReset c now := by
  obtain ⟨s, hs, h0, hi⟩ := h
  simp only [RateCounter.maybe_reset, hs]
  rw [if_pos ⟨h0, hi⟩]
  rfl

theorem maybe_reset_of_not_expired (c : RateCounter) (now : Int) (h : ¬ rcExpired c now) :
    c.maybe_reset now = c := by
  cases hs : c.start with
  | none => simp [RateCounter.maybe_reset, hs]
  | some s =>
    have : ¬ (s ≠ 0 ∧ c.interval ≤ now - s) := fun hc => h ⟨s, hs, hc.1, hc.2⟩
    simp [RateCounter.maybe_reset, hs, this]

theorem maybe_reset_limit (c : RateCounter) (now : Int) :
    (c.maybe_reset now).limit = c.limit := by
  rcases maybe_reset_cases c now with h | ⟨_, h⟩ <;> simp [h, rcReset]

theorem maybe_reset_interval (c : RateCounter) (now : Int) :
    (c.maybe_reset now).interval = c.interval := by
  rcases maybe_reset_cases c now with h | ⟨_, h⟩ <;> simp [h, rcReset]

theorem maybe_reset_idem (c : RateCounter) (now : Int) :
    (c.maybe_reset now).maybe_reset now = c.maybe_reset now := by
  rcases maybe_reset_cases c now with h | ⟨he, h⟩
  · rw [h, h]
  · rw [h]
    by_cases hd : now ≠ 0 ∧ c.interval ≤ now - now
    · have : rcExpired (rcReset c now) now := ⟨now, rfl, hd.1, hd.2⟩
      rw [maybe_reset_of_expired _ _ this]
      rfl
    · apply maybe_reset_of_not_expired
      rintro ⟨s, hs, h0, hi⟩
      have : now = s := by simpa [rcReset] using hs
      subst this
      exact hd ⟨h0, hi⟩

theorem pool_can_add_true_iff (cs : List RateCounter) (now : Int) :
    (RateCounterPool.can_add cs now).2 = true ↔ ∀ c ∈ cs, rcAdmits c now := by
  induction cs with
  | nil => simp [RateCounterPool.can_add]
  | cons c cs ih =>
    by_cases h : rcAdmits c now
    · have hb : (c.can_add now).2 = true := by
        simp [RateCounter.can_add, rcAdmits] at h ⊢
        exact h
      simp [RateCounterPool.can_add, hb, ih, h]
    · have hb : (c.can_add now).2 = false := by
        simp [RateCounter.can_add, rcAdmits] at h ⊢
        exact h
      simp [RateCounterPool.can_add, hb, h]

theorem pool_can_add_true_state (cs : List RateCounter) (now : Int)
    (h : (RateCounterPool.can_add cs now).2 = true) :
    (RateCounterPool.can_add cs now).1 = cs.map (fun c => c.maybe_reset now) := by
  induction cs with
  | nil => simp [RateCounterPool.can_add]
  | cons c cs ih =>
    by_cases hb : (c.can_add now).2 = true
    · simp only [RateCounterPool.can_add, hb, if_true] at h ⊢
      have := ih h
      simp [this, RateCounter.can_add]
    · simp only [RateCounterPool.can_add, hb] at h
      simp at hb
      simp [hb] at h

theorem pool_can_add_elem (cs : List RateCounter) (now : Int) (i : Nat) :
    (RateCounterPool.can_add cs now).1.get? i = cs.get? i ∨
    (RateCounterPool.can_add cs now).1.get? i = (cs.get? i).map (fun c => c.maybe_reset now) := by
  induction cs generalizing i with
  | nil => left; simp [RateCounterPool.can_add]
  | cons c cs ih =>
    by_cases hb : (c.maybe_reset now).count < (c.maybe_reset now).limit
    · cases i with
      | zero =>
        right
        simp [RateCounterPool.can_add, RateCounter.can_add, hb]
      | succ j =>
        have := ih j
        simpa [RateCounterPool.can_add, RateCounter.can_add, hb] using this
    · cases i with
      | zero =>
        right
        simp [RateCounterPool.can_add, RateCounter.can_add, hb]
      | succ j =>
        left
        simp [RateCounterPool.can_add, RateCounter.can_add, hb]

theorem pool_can_add_length (cs : List RateCounter) (now : Int) :
    (RateCounterPool.can_add cs now).1.length = cs.length := by
  induction cs with
  | nil => rfl
  | cons c cs ih =>
    by_cases hb : (c.maybe_reset now).count < (c.maybe_reset now).limit
    · simp [RateCounterPool.can_add, RateCounter.can_add, hb, ih]
    · simp [RateCounterPool.can_add, RateCounter.can_add, hb]

theorem pool_can_add_false_exists (cs : List RateCounter) (now : Int)
    (h : (RateCounterPool.can_add cs now).2 = false) :
    ∃ c ∈ cs, ¬ rcAdmits c now := by
  by_contra hall
  push_neg at hall
  have := (pool_can_add_true_iff cs now).2 hall
  rw [h] at this
  exact Bool.false_ne_true this

theorem get_cond_iff {α : Type} (q : TaskQueue α) (now : Int) :
    ((RateCounterPool.can_add q.rate_counters now).2 && !q.queue.isEmpty) = true
      ↔ ((∀ c ∈ q.rate_counters, rcAdmits c now) ∧ q.queue ≠ []) := by
  rw [Bool.and_eq_true, pool_can_add_true_iff]
  simp

/-- C4: `get()` pops and returns the head of the FIFO queue and increments
every (lazily reset) rate counter exactly when every counter admits at the
call's timestamp and the queue is non-empty; otherwise it returns nothing
and leaves the queue contents untouched. -/
theorem taskqueue_get_spec {α : Type} (q : TaskQueue α) (now : Int) :
    (((∀ c ∈ q.rate_counters, rcAdmits c now) ∧ q.queue ≠ []) →
      (q.get now).2 = q.queue.head? ∧
      (q.get now).1.queue = q.queue.tail ∧
      (q.get now).1.queue_limit = q.queue_limit ∧
      (q.get now).1.rate_counters
        = q.rate_counters.map (fun c => (c.maybe_reset now).increment now)) ∧
    ((¬ ((∀ c ∈ q.rate_counters, rcAdmits c now) ∧ q.queue ≠ [])) →
      (q.get now).2 = none ∧ (q.get now).1.queue = q.queue) := by
  by_cases hc : ((RateCounterPool.can_add q.rate_counters now).2 && !q.queue.isEmpty) = true
  · have hp := (get_cond_iff q now).1 hc
    have hb : (RateCounterPool.can_add q.rate_counters now).2 = true := by
      rw [Bool.and_eq_true] at hc
      exact hc.1
    constructor
    · intro _
      refine ⟨?_, ?_, ?_, ?_⟩ <;>
        simp [TaskQueue.get, hc, RateCounterPool.increment, pool_can_add_true_state _ _ hb,
          List.map_map, Function.comp]
    · intro h
      exact absurd hp h
  · constructor
    · intro hp
      exact absurd ((get_cond_iff q now).2 hp) hc
    · intro _
      simp only [Bool.not_eq_true] at hc
      simp [TaskQueue.get, hc]

/-- Witness for `taskqueue_get_spec` at a concrete queue: no rules, one
queued task; `get` succeeds and returns the head. -/
theorem taskqueue_get_spec_witness :
    ((⟨[5], none, []⟩ : TaskQueue Nat).get 0).2 = some 5 ∧
    ((⟨[5], none, []⟩ : TaskQueue Nat).get 0).1.queue = [] := by
  have h := (taskqueue_get_spec (⟨[5], none, []⟩ : TaskQueue Nat) 0).1
    (by refine ⟨?_, ?_⟩ <;> simp)
  exact ⟨h.1, h.2.1⟩

/-- C6: with an empty rule set the queue is unrestricted: `status()` reports
`available` exactly when the queue is non-empty and `empty` otherwise
(never `unavailable` or `not_started`, and never the undefined `max` over
zero windows, so no exception), and `get()` always pops the head of a
non-empty queue. -/
theorem no_rules_unrestricted {α : Type} (q : TaskQueue α) (now : Int)
    (h : q.rate_counters = []) :
    (q.status now
      = (q, some (if q.queue.isEmpty then (queue_status.empty, none)
                  else (queue_status.available, none)))) ∧
    (q.queue = [] → q.get now = (q, none)) ∧
    (∀ t ts, q.queue = t :: ts → q.get now = (⟨ts, q.queue_limit, []⟩, some t)) := by
  obtain ⟨qs, ql, qc⟩ := q
  simp only at h
  subst h
  refine ⟨?_, ?_, ?_⟩
  · cases qs with
    | nil => simp [TaskQueue.status, RateCounterPool.can_add]
    | cons t ts => simp [TaskQueue.status, RateCounterPool.can_add]
  · intro hq
    simp only at hq
    subst hq
    simp [TaskQueue.get, RateCounterPool.can_add]
  · intro t ts hq
    simp only at hq
    subst hq
    simp [TaskQueue.get, RateCounterPool.can_add, RateCounterPool.increment]

/-- Witness for `no_rules_unrestricted`: a concrete unrestricted queue with
one task reports `available` and dequeues it. -/
theorem no_rules_unrestricted_witness :
    ((⟨[7], none, []⟩ : TaskQueue Nat).status 3
      = (⟨[7], none, []⟩, some (queue_status.available, none))) ∧
    ((⟨[7], none, []⟩ : TaskQueue Nat).get 3 = (⟨[], none, []⟩, some 7)) := by
  have h := no_rules_unrestricted (⟨[7], none, []⟩ : TaskQueue Nat) 3 rfl
  exact ⟨h.1, h.2.2 7 [] rfl⟩

theorem runWorkersAt_cons {K α : Type} (st : APITaskQueue K α) (now : Int)
    (rest : List Int) :
    runWorkersAt st (now :: rest)
      = (match (st.check_and_run now).2 with
         | some r => r.2 :: runWorkersAt (st.check_and_run now).1 rest
         | none => runWorkersAt (st.check_and_run now).1 rest) := rfl

theorem dequeuedCount_cons {K α : Type} (st : APITaskQueue K α) (now : Int)
    (rest : List Int) :
    dequeuedCount st (now :: rest)
      = (match (st.check_and_run now).2 with
         | some _ => dequeuedCount (st.check_and_run now).1 rest + 1
         | none => dequeuedCount (st.check_and_run now).1 rest) := rfl

theorem check_and_run_none {K α : Type} (st : APITaskQueue K α) (now : Int)
    (h : (st.queue.get now).2 = none) :
    st.check_and_run now
      = (⟨(st.queue.get now).1, st.api_keys, st.need_key, st.key_counter⟩, none) := by
  simp only [APITaskQueue.check_and_run, h]

theorem check_and_run_some {K α : Type} (st : APITaskQueue K α) (now : Int) {t : α}
    (h : (st.queue.get now).2 = some t) (hk : st.need_key = true) :
    st.check_and_run now
      = (⟨(st.queue.get now).1, st.api_keys, st.need_key,
          (st.key_counter + 1) % st.api_keys.length⟩,
         some (t, st.api_keys.get? st.key_counter)) := by
  simp only [APITaskQueue.check_and_run, h, hk, if_true]

/-- C7: the rotation cursor of every `APITaskQueue` advances exactly once per
dequeued task (never on a failed attempt) and wraps modulo the credential
count; consequently, with credentials `[a, b, c]`, for every queue state,
every starting cursor, and every interleaving of worker attempts at
arbitrary timestamps, the k-th dequeued invocation is injected credential
number `(cursor + k) mod 3` — in particular consecutive dequeues from
cursor 0 receive `a, b, c` and the fourth receives `a` again. -/
theorem credential_rotation_wraps {K α : Type} :
    (∀ (st : APITaskQueue K α) (now : Int),
      ((st.queue.get now).2 = none →
        (st.check_and_run now).1.key_counter = st.key_counter ∧
        (st.check_and_run now).2 = none) ∧
      (∀ t, (st.queue.get now).2 = some t → st.need_key = true →
        (st.check_and_run now).2 = some (t, st.api_keys.get? st.key_counter) ∧
        (st.check_and_run now).1.key_counter
          = (st.key_counter + 1) % st.api_keys.length)) ∧
    (∀ (a b c : K) (q : TaskQueue α) (ks : Nat) (nows : List Int), ks < 3 →
      runWorkersAt (⟨q, [a, b, c], true, ks⟩ : APITaskQueue K α) nows
        = (List.range (dequeuedCount (⟨q, [a, b, c], true, ks⟩ : APITaskQueue K α) nows)).map
            (fun k => [a, b, c].get? ((ks + k) % 3))) := by
  constructor
  · intro st now
    constructor
    · intro h
      rw [check_and_run_none st now h]
      exact ⟨rfl, rfl⟩
    · intro t h hk
      rw [check_and_run_some st now h hk]
      exact ⟨rfl, rfl⟩
  · intro a b c q ks nows
    induction nows generalizing q ks with
    | nil => intro _; rfl
    | cons now rest ih =>
      intro hks
      cases hres : ((⟨q, [a, b, c], true, ks⟩ : APITaskQueue K α).queue.get now).2 with
      | none =>
        have hcar := check_and_run_none (⟨q, [a, b, c], true, ks⟩ : APITaskQueue K α) now hres
        rw [runWorkersAt_cons, dequeuedCount_cons, hcar]
        exact ih _ ks hks
      | some t =>
        have hcar := check_and_run_some (⟨q, [a, b, c], true, ks⟩ : APITaskQueue K α) now
          hres rfl
        rw [runWorkersAt_cons, dequeuedCount_cons, hcar]
        show [a, b, c].get? ks
            :: runWorkersAt
              (⟨(q.get now).1, [a, b, c], true, (ks + 1) % 3⟩ : APITaskQueue K α) rest
          = (List.range (dequeuedCount
              (⟨(q.get now).1, [a, b, c], true, (ks + 1) % 3⟩ : APITaskQueue K α) rest + 1)).map
              (fun k => [a, b, c].get? ((ks + k) % 3))
        have hks' : (ks + 1) % 3 < 3 := Nat.mod_lt _ (by omega)
        rw [ih _ ((ks + 1) % 3) hks']
        rw [List.range_succ_eq_map, List.map_cons, List.map_map]
        congr 1
        · show [a, b, c].get? ks = [a, b, c].get? ((ks + 0) % 3)
          have h0 : (ks + 0) % 3 = ks := by omega
          rw [h0]
        · apply List.map_congr_left
          intro k _
          show [a, b, c].get? (((ks + 1) % 3 + k) % 3) = [a, b, c].get? ((ks + (k + 1)) % 3)
          have hmod : ((ks + 1) % 3 + k) % 3 = (ks + (k + 1)) % 3 := by omega
          rw [hmod]

/-- Witness for `credential_rotation_wraps`: concrete credentials
`[10, 20, 30]`, four attempts at time 0 against an unrestricted queue of
four tasks — the injected credentials are `10, 20, 30, 10`. -/
theorem credential_rotation_wraps_witness :
    runWorkersAt (⟨⟨[0, 1, 2, 3], none, []⟩, [10, 20, 30], true, 0⟩ : APITaskQueue Nat Nat)
      [0, 0, 0, 0] = [some 10, some 20, some 30, some 10] := by
  have h := (credential_rotation_wraps (K := Nat) (α := Nat)).2 10 20 30
    ⟨[0, 1, 2, 3], none, []⟩ 0 [0, 0, 0, 0] (by decide)
  rw [h]
  rfl

theorem rulesValid_scale (k : Nat) (rules : List (List Int))
    (h : rulesValid rules = true) : rulesValid (scaleLimits k rules) = true := by
  unfold scaleLimits
  by_cases hk : 1 < k
  · simp only [hk, if_true]
    rw [rulesValid, List.all_eq_true] at h ⊢
    intro x hx
    rw [List.mem_map] at hx
    obtain ⟨y, hy, rfl⟩ := hx
    have hy' := h y hy
    rw [ruleOK, Bool.and_eq_true, Bool.and_eq_true] at hy'
    obtain ⟨⟨-, h1⟩, h2⟩ := hy'
    rw [ruleOK]
    simp only [Bool.and_eq_true, decide_eq_true_eq] at h1 h2 ⊢
    refine ⟨⟨rfl, ?_⟩, ?_⟩
    · simp only [List.getD, List.get?, Option.getD]
      have hk0 : (0 : Int) < (k : Int) := by exact_mod_cast Nat.lt_of_lt_of_le Nat.zero_lt_one hk.le
      exact mul_pos (by simpa using h1) hk0
    · simpa using h2
  · simp [hk, h]

/-- C8: when the facade is constructed with `k > 1` credentials, every rule
`(N, T)` reaches the internal queue as `(N * k, T)`; with zero or one
credential the rules are applied unchanged. -/
theorem api_rate_limits_scaled {K α : Type} (keys : List K) (rules : List (List Int))
    (lim : Option Int) (nt : Int) (st : APITaskQueue K α)
    (h : APITaskQueue.mkNew K α keys rules lim nt = some st) :
    (1 < keys.length →
      ∀ i N T, rules.get? i = some [N, T] →
        st.queue.rate_counters.get? i = some ⟨N * (keys.length : Int), T, 0, none⟩) ∧
    (keys.length ≤ 1 →
      ∀ i N T, rules.get? i = some [N, T] →
        st.queue.rate_counters.get? i = some ⟨N, T, 0, none⟩) := by
  by_cases hv : rulesValid rules = true
  · have hvs := rulesValid_scale keys.length rules hv
    rw [APITaskQueue.mkNew] at h
    simp only [hv, if_true] at h
    rw [TaskQueue.mkNew] at h
    simp only [hvs, if_true] at h
    by_cases hnt : 0 < nt
    · simp only [hnt, if_true, Option.some.injEq] at h
      subst h
      constructor
      · intro hk i N T hi
        simp only [scaleLimits, hk, if_true, List.get?_map, hi, Option.map_some,
          mkRateCounter, List.getD]
        rfl
      · intro hk i N T hi
        have hk' : ¬ 1 < keys.length := by omega
        simp only [scaleLimits, hk', if_false, List.get?_map, hi, Option.map_some,
          mkRateCounter, List.getD]
        rfl
    · simp [hnt] at h
  · rw [APITaskQueue.mkNew] at h
    simp [hv] at h

/-- Witness for `api_rate_limits_scaled`: two credentials scale rule `(3, 7)`
to `(6, 7)`. -/
theorem api_rate_limits_scaled_witness :
    (⟨⟨[], none, [⟨6, 7, 0, none⟩]⟩, [5, 6], true, 0⟩ : APITaskQueue Nat Nat).queue.rate_counters.get? 0
      = some ⟨(3 : Int) * ((2 : Nat) : Int), 7, 0, none⟩ := by
  have h := api_rate_limits_scaled [5, 6] [[3, 7]] none 1
    (⟨⟨[], none, [⟨6, 7, 0, none⟩]⟩, [5, 6], true, 0⟩ : APITaskQueue Nat Nat) (by decide)
  exact h.1 (by decide) 0 3 7 rfl

/-- C9 counterexample: an `APITaskQueue` constructed with a perfectly valid
(empty) rule list but `num_threads = 0` still fails at construction (the
`FunctionalThreadPool` assert), so construction failure is not equivalent
to a malformed rate rule. -/
theorem api_construction_fails_without_malformed_rule :
    rulesValid [] = true ∧ APITaskQueue.mkNew Nat Nat [] [] none 0 = none := by
  decide

/-- C9 as amended: a `TaskQueue` fails at construction iff some rate rule is
malformed; an `APITaskQueue` fails at construction iff some rate rule is
malformed or `num_threads < 1`.  Malformed rules are never accepted or
coerced. -/
theorem construction_failure_characterization (rules : List (List Int)) (lim : Option Int) :
    (TaskQueue.mkNew Nat rules lim = none ↔ rulesValid rules = false) ∧
    (∀ (keys : List Nat) (nt : Int),
      APITaskQueue.mkNew Nat Nat keys rules lim nt = none
        ↔ (rulesValid rules = false ∨ nt ≤ 0)) := by
  constructor
  · rw [TaskQueue.mkNew]
    by_cases hv : rulesValid rules = true
    · simp [hv]
    · simp only [Bool.not_eq_true] at hv
      simp [hv]
  · intro keys nt
    rw [APITaskQueue.mkNew]
    by_cases hv : rulesValid rules = true
    · have hvs := rulesValid_scale keys.length rules hv
      simp only [hv, hvs, if_true, TaskQueue.mkNew]
      by_cases hnt : 0 < nt
      · simp [hnt]
      · simp only [hnt, if_false]
        simp
        omega
    · simp only [Bool.not_eq_true] at hv
      simp [hv]

/-- Witness for `construction_failure_characterization`: the malformed rule
`(0, 5)` makes both constructors fail. -/
theorem construction_failure_characterization_witness :
    (TaskQueue.mkNew Nat [[0, 5]] none = none ↔ rulesValid [[0, 5]] = false) ∧
    (APITaskQueue.mkNew Nat Nat [] [[0, 5]] none 1 = none
      ↔ (rulesValid [[0, 5]] = false ∨ (1 : Int) ≤ 0)) :=
  ⟨(construction_failure_characterization [[0, 5]] none).1,
   (construction_failure_characterization [[0, 5]] none).2 [] 1⟩

/-- C3 counterexample: the constructor accepts `queue_limit = -1`; then
`put([7, 8, 9])` appends 2 tasks (Python slice `tasks[:-1]`), which is not
`min(3, -1 - 0) = -1`, and the queue (size 2) exceeds `queue_limit = -1`. -/
theorem put_negative_limit_breaks_min_formula :
    TaskQueue.mkNew Nat [] (some (-1)) = some ⟨[], some (-1), []⟩ ∧
    ((⟨[], some (-1), []⟩ : TaskQueue Nat).put [7, 8, 9]).2 = 2 ∧
    ((⟨[], some (-1), []⟩ : TaskQueue Nat).put [7, 8, 9]).1.queue = [7, 8] ∧
    ¬ ((2 : Int) = min (3 : Int) (-1 - 0)) ∧
    ¬ ((((⟨[], some (-1), []⟩ : TaskQueue Nat).put [7, 8, 9]).1.queue.length : Int) ≤ -1) := by
  decide

/-- C3 as amended: whenever the queue limit, if set, is at least the current
queue size (true of every state reachable from construction with a
nonnegative limit), `put` appends exactly
`min(len(tasks), queue_limit - size)` tasks — all of them when the limit
is unset — taken as a prefix of `tasks` in order, silently drops the
rest, returns the number appended, and never grows the queue beyond the
limit. -/
theorem put_appends_exact_min {α : Type} (q : TaskQueue α) (tasks : List α)
    (hlim : ∀ L, q.queue_limit = some L → (q.queue.length : Int) ≤ L) :
    (q.queue_limit = none →
      (q.put tasks).1.queue = q.queue ++ tasks ∧ (q.put tasks).2 = tasks.length) ∧
    (∀ L, q.queue_limit = some L →
      (q.put tasks).1.queue = q.queue ++ tasks.take (L - (q.queue.length : Int)).toNat ∧
      ((q.put tasks).2 : Int) = min (tasks.length : Int) (L - (q.queue.length : Int)) ∧
      (((q.put tasks).1.queue.length : Int) ≤ L)) ∧
    (q.put tasks).1.queue_limit = q.queue_limit ∧
    (q.put tasks).1.rate_counters = q.rate_counters := by
  refine ⟨?_, ?_, ?_, ?_⟩
  · intro h
    simp [TaskQueue.put, h]
  · intro L hL
    have hk : (0 : Int) ≤ L - (q.queue.length : Int) := by
      have := hlim L hL
      omega
    constructor
    · simp [TaskQueue.put, hL, pySliceTo, hk]
    · constructor
      · simp only [TaskQueue.put, hL, pySliceTo, hk, if_true]
        rw [List.length_take]
        have : ((L - (q.queue.length : Int)).toNat : Int) = L - (q.queue.length : Int) :=
          Int.toNat_of_nonneg hk
        omega
      · simp only [TaskQueue.put, hL, pySliceTo, hk, if_true, List.length_append]
        rw [List.length_take]
        have : ((L - (q.queue.length : Int)).toNat : Int) = L - (q.queue.length : Int) :=
          Int.toNat_of_nonneg hk
        push_cast
        omega
  · cases hq : q.queue_limit <;> simp [TaskQueue.put, hq]
  · cases hq : q.queue_limit <;> simp [TaskQueue.put, hq]

/-- Witness for `put_appends_exact_min`: the spec scenario `queue_limit = 3`,
`put([t1, t2, t3, t4])` appends `[t1, t2, t3]` and returns 3. -/
theorem put_appends_exact_min_witness :
    ((⟨[], some 3, []⟩ : TaskQueue Nat).put [1, 2, 3, 4]).1.queue
      = [] ++ [1, 2, 3, 4].take ((3 : Int) - 0).toNat ∧
    (((⟨[], some 3, []⟩ : TaskQueue Nat).put [1, 2, 3, 4]).2 : Int)
      = min (4 : Int) ((3 : Int) - 0) := by
  have h := (put_appends_exact_min (⟨[], some 3, []⟩ : TaskQueue Nat) [1, 2, 3, 4]
    (by intro L hL; injection hL with h; subst h; decide)).2.1 3 rfl
  exact ⟨h.1, h.2.1⟩

/-- C2 counterexample: from a reachable state (rule `(1, 5)`, one `get` at
time 1), calling `status()` at time 10 resets the expired counter —
`count` drops from 1 to 0 and `window_start` moves from 1 to 10 — so
`status()` is not free of side effects on rate-counter state. -/
theorem status_resets_expired_counter :
    runOps (⟨[], none, [⟨1, 5, 0, none⟩]⟩ : TaskQueue Nat) [Op.put [0, 1], Op.get 1]
      = ⟨[1], none, [⟨1, 5, 1, some 1⟩]⟩ ∧
    ((⟨[1], none, [⟨1, 5, 1, some 1⟩]⟩ : TaskQueue Nat).status 10).1.rate_counters
      = [⟨1, 5, 0, some 10⟩] ∧
    ((⟨[1], none, [⟨1, 5, 1, some 1⟩]⟩ : TaskQueue Nat).status 10).1
      ≠ (⟨[1], none, [⟨1, 5, 1, some 1⟩]⟩ : TaskQueue Nat) := by
  decide

/-- C5 counterexample: with the non-decreasing (but not strictly positive)
timestamps 0, 0, 10, the counter's window starts at 0; at time 10 the
window is long expired (`10 - 0 ≥ 5`) yet `get` reads the stale
`count = 1` and denies admission without resetting — `_maybe_reset`
treats the integer 0 as falsy. -/
theorem expired_counter_not_reset_when_started_at_zero :
    opsLB (α := Nat) 0 [Op.put [0, 1], Op.get 0, Op.get 10] = true ∧
    runOps (⟨[], none, [⟨1, 5, 0, none⟩]⟩ : TaskQueue Nat) [Op.put [0, 1], Op.get 0]
      = ⟨[1], none, [⟨1, 5, 1, some 0⟩]⟩ ∧
    ((5 : Int) ≤ 10 - 0) ∧
    TaskQueue.get (⟨[1], none, [⟨1, 5, 1, some 0⟩]⟩ : TaskQueue Nat) 10
      = (⟨[1], none, [⟨1, 5, 1, some 0⟩]⟩, none) := by
  decide

/-- C1 counterexample: rule `(2, 10)`, trace with non-decreasing timestamps
whose successful `get`s happen at 10, 19, 20 and 21; the sliding 10-second
window `[12, 22)` contains three of them, exceeding `N = 2` (the limiter
uses fixed windows, which a sliding-interval bound does not survive). -/
theorem sliding_window_bound_violated :
    rulesValid [[2, 10]] = true ∧
    TaskQueue.mkNew Nat [[2, 10]] none = some ⟨[], none, [⟨2, 10, 0, none⟩]⟩ ∧
    opsLB (α := Nat) 0 [Op.put [0, 1, 2, 3], Op.get 10, Op.get 19, Op.get 20, Op.get 21] = true ∧
    runEvents (⟨[], none, [⟨2, 10, 0, none⟩]⟩ : TaskQueue Nat)
      [Op.put [0, 1, 2, 3], Op.get 10, Op.get 19, Op.get 20, Op.get 21] = [10, 19, 20, 21] ∧
    cntIn 12 10 [10, 19, 20, 21] = 3 ∧ ¬ (3 ≤ 2) := by
  decide

theorem pool_can_add_cons_pos {c : RateCounter} {now : Int} (cs : List RateCounter)
    (h : (c.maybe_reset now).count < (c.maybe_reset now).limit) :
    RateCounterPool.can_add (c :: cs) now
      = (c.maybe_reset now :: (RateCounterPool.can_add cs now).1,
         (RateCounterPool.can_add cs now).2) := by
  simp [RateCounterPool.can_add, RateCounter.can_add, h]

theorem pool_can_add_cons_neg {c : RateCounter} {now : Int} (cs : List RateCounter)
    (h : ¬ (c.maybe_reset now).count < (c.maybe_reset now).limit) :
    RateCounterPool.can_add (c :: cs) now = (c.maybe_reset now :: cs, false) := by
  simp [RateCounterPool.can_add, RateCounter.can_add, h]

theorem rc_tur_state (c : RateCounter) (now : Int) :
    (c.time_until_ready now).1 = c.maybe_reset now := by
  cases hs : (c.maybe_reset now).start with
  | none => simp [RateCounter.time_until_ready, hs]
  | some s =>
    by_cases hcnt : (c.maybe_reset now).count < (c.maybe_reset now).limit
    · simp [RateCounter.time_until_ready, hs, hcnt]
    · simp [RateCounter.time_until_ready, hs, hcnt]

/-! ### Reachability invariant under strictly positive clock readings -/

theorem posInvC_mono {c : RateCounter} {tb tb' : Int} (h : PosInvC c tb) (hle : tb ≤ tb') :
    PosInvC c tb' := by
  obtain ⟨h1, h2, h3, h4, h5, h6⟩ := h
  exact ⟨h1, h2, h3, h4, h5, fun s hs => ⟨(h6 s hs).1, le_trans (h6 s hs).2 hle⟩⟩

theorem posInvC_maybe_reset {c : RateCounter} {tb : Int} (now : Int) (h : PosInvC c tb)
    (hle : tb ≤ now) (hpos : 0 < now) : PosInvC (c.maybe_reset now) now := by
  rcases maybe_reset_cases c now with hm | ⟨-, hm⟩
  · rw [hm]
    exact posInvC_mono h hle
  · rw [hm]
    obtain ⟨h1, h2, h3, h4, h5, h6⟩ := h
    refine ⟨h1, h2, le_refl 0, le_of_lt h1, fun hc => absurd rfl hc, ?_⟩
    intro s hs
    have : now = s := by simpa [rcReset] using hs
    subst this
    exact ⟨hpos, le_refl _⟩

theorem posInvC_increment {c : RateCounter} {tb : Int} (now : Int) (h : PosInvC c tb)
    (hle : tb ≤ now) (hpos : 0 < now) (hcnt : c.count < c.limit) :
    PosInvC (c.increment now) now := by
  obtain ⟨h1, h2, h3, h4, h5, h6⟩ := h
  cases hs : c.start with
  | none =>
    have hc1 : RateCounter.increment c now
        = { c with start := some now, count := c.count + 1 } := by
      have hne : ¬ rcExpired ({ c with start := some now }) now := by
        rintro ⟨s, hs', h0, hi⟩
        have : now = s := by simpa using hs'
        subst this
        have hi' : c.interval ≤ now - now := hi
        omega
      simp only [RateCounter.increment, hs]
      rw [maybe_reset_of_not_expired _ _ hne]
    rw [hc1]
    refine ⟨h1, h2, (by omega : (0 : Int) ≤ c.count + 1),
      (by omega : c.count + 1 ≤ c.limit), fun _ => (by simp : some now ≠ none), ?_⟩
    intro s hs'
    have : now = s := by simpa using hs'
    subst this
    exact ⟨hpos, le_refl _⟩
  | some s0 =>
    have hc1 : RateCounter.increment c now
        = { c.maybe_reset now with count := (c.maybe_reset now).count + 1 } := by
      simp only [RateCounter.increment, hs]
    rw [hc1]
    rcases maybe_reset_cases c now with hm | ⟨-, hm⟩
    · rw [hm]
      refine ⟨h1, h2, (by omega : (0 : Int) ≤ c.count + 1),
        (by omega : c.count + 1 ≤ c.limit), fun _ => (by simp [hs] : c.start ≠ none), ?_⟩
      intro s hs'
      have := h6 s hs'
      omega
    · rw [hm]
      refine ⟨h1, h2, (by omega : (0 : Int) ≤ (0 : Int) + 1),
        (by omega : (0 : Int) + 1 ≤ c.limit), fun _ => (by simp [rcReset] : some now ≠ none), ?_⟩
      intro s hs'
      have : now = s := by simpa [rcReset] using hs'
      subst this
      exact ⟨hpos, le_refl _⟩

theorem pool_can_add_mem (cs : List RateCounter) (now : Int) :
    ∀ c' ∈ (RateCounterPool.can_add cs now).1, ∃ c ∈ cs, c' = c ∨ c' = c.maybe_reset now := by
  induction cs with
  | nil =>
    intro c' hc'
    simp [RateCounterPool.can_add] at hc'
  | cons c cs ih =>
    intro c' hc'
    by_cases hb : (c.maybe_reset now).count < (c.maybe_reset now).limit
    · rw [pool_can_add_cons_pos cs hb] at hc'
      rcases List.mem_cons.1 hc' with h | h
      · exact ⟨c, List.mem_cons_self c cs, Or.inr h⟩
      · obtain ⟨d, hd, hor⟩ := ih c' h
        exact ⟨d, List.mem_cons_of_mem c hd, hor⟩
    · rw [pool_can_add_cons_neg cs hb] at hc'
      rcases List.mem_cons.1 hc' with h | h
      · exact ⟨c, List.mem_cons_self c cs, Or.inr h⟩
      · exact ⟨c', List.mem_cons_of_mem c h, Or.inl rfl⟩

theorem pool_can_add_true_counts (cs : List RateCounter) (now : Int)
    (h : (RateCounterPool.can_add cs now).2 = true) :
    ∀ c' ∈ (RateCounterPool.can_add cs now).1, c'.count < c'.limit := by
  intro c' hc'
  rw [pool_can_add_true_state cs now h] at hc'
  rw [List.mem_map] at hc'
  obtain ⟨c, hc, rfl⟩ := hc'
  exact (pool_can_add_true_iff cs now).1 h c hc

theorem pool_max_ready_state (cs : List RateCounter) (now : Int)
    (p : List RateCounter × Int) (h : RateCounterPool.max_ready cs now = some p) :
    p.1 = cs.map (fun c => c.maybe_reset now) := by
  induction cs generalizing p with
  | nil => simp [RateCounterPool.max_ready] at h
  | cons c cs ih =>
    cases cs with
    | nil =>
      simp only [RateCounterPool.max_ready, Option.some.injEq] at h
      subst h
      simp [rc_tur_state]
    | cons c2 cs2 =>
      rw [RateCounterPool.max_ready] at h
      cases hrec : RateCounterPool.max_ready (c2 :: cs2) now with
      | none => rw [hrec] at h; exact absurd h (by simp)
      | some q =>
        rw [hrec] at h
        simp only [Option.some.injEq] at h
        subst h
        simp only [List.map_cons, rc_tur_state]
        rw [ih q hrec]
        simp

theorem pool_max_ready_isSome (cs : List RateCounter) (now : Int) (h : cs ≠ []) :
    ∃ p, RateCounterPool.max_ready cs now = some p := by
  cases cs with
  | nil => exact absurd rfl h
  | cons c cs =>
    cases cs with
    | nil => exact ⟨_, rfl⟩
    | cons c2 cs2 =>
      obtain ⟨q, hq⟩ := pool_max_ready_isSome (c2 :: cs2) now (by simp)
      rw [RateCounterPool.max_ready, hq]
      exact ⟨_, rfl⟩

theorem pool_max_ready_ge (cs : List RateCounter) (now : Int)
    (p : List RateCounter × Int) (h : RateCounterPool.max_ready cs now = some p) :
    ∀ c ∈ cs, (c.time_until_ready now).2 ≤ p.2 := by
  induction cs generalizing p with
  | nil => simp
  | cons c cs ih =>
    cases cs with
    | nil =>
      simp only [RateCounterPool.max_ready, Option.some.injEq] at h
      subst h
      simp
    | cons c2 cs2 =>
      rw [RateCounterPool.max_ready] at h
      cases hrec : RateCounterPool.max_ready (c2 :: cs2) now with
      | none => rw [hrec] at h; exact absurd h (by simp)
      | some q =>
        rw [hrec] at h
        simp only [Option.some.injEq] at h
        subst h
        intro d hd
        rcases List.mem_cons.1 hd with rfl | hd
        · exact le_max_left _ _
        · exact le_trans (ih q hrec d hd) (le_max_right _ _)

theorem put_rate_counters {α : Type} (q : TaskQueue α) (tasks : List α) :
    (q.put tasks).1.rate_counters = q.rate_counters := by
  cases hq : q.queue_limit <;> simp [TaskQueue.put, hq]

theorem posInvQ_can_add {α : Type} {q : TaskQueue α} {tb : Int} (now : Int)
    (h : PosInvQ q tb) (hle : tb ≤ now) (hpos : 0 < now) :
    ∀ c' ∈ (RateCounterPool.can_add q.rate_counters now).1, PosInvC c' now := by
  intro c' hc'
  obtain ⟨c, hc, hor⟩ := pool_can_add_mem q.rate_counters now c' hc'
  cases hor with
  | inl h1 => rw [h1]; exact posInvC_mono (h c hc) hle
  | inr h1 => rw [h1]; exact posInvC_maybe_reset now (h c hc) hle hpos

theorem posInvQ_get {α : Type} {q : TaskQueue α} {tb : Int} (now : Int)
    (h : PosInvQ q tb) (hle : tb ≤ now) (hpos : 0 < now) :
    PosInvQ (q.get now).1 now := by
  by_cases hc : ((RateCounterPool.can_add q.rate_counters now).2 && !q.queue.isEmpty) = true
  · have hb : (RateCounterPool.can_add q.rate_counters now).2 = true := by
      rw [Bool.and_eq_true] at hc
      exact hc.1
    intro c' hc'
    simp only [TaskQueue.get, hc, if_true] at hc'
    simp only [RateCounterPool.increment, List.mem_map] at hc'
    obtain ⟨d, hd, rfl⟩ := hc'
    have hdinv : PosInvC d now := posInvQ_can_add now h hle hpos d hd
    have hdcnt : d.count < d.limit := pool_can_add_true_counts _ _ hb d hd
    exact posInvC_increment now hdinv (le_refl now) hpos hdcnt
  · intro c' hc'
    simp only [Bool.not_eq_true] at hc
    simp only [TaskQueue.get, hc, Bool.false_eq_true, if_false] at hc'
    exact posInvQ_can_add now h hle hpos c' hc'

theorem status_counters_cases {α : Type} (q : TaskQueue α) (now : Int) :
    (q.status now).1.rate_counters = (RateCounterPool.can_add q.rate_counters now).1 ∨
    (q.status now).1.rate_counters
      = (RateCounterPool.can_add q.rate_counters now).1.map (fun c => c.maybe_reset now) := by
  by_cases hcd : ((RateCounterPool.can_add q.rate_counters now).2 && !q.queue.isEmpty) = true
  · left
    simp only [TaskQueue.status, hcd, if_true]
  · by_cases he : q.queue.isEmpty = true
    · left
      simp only [TaskQueue.status]
      rw [if_neg hcd, if_pos he]
    · simp only [TaskQueue.status]
      rw [if_neg hcd, if_neg he]
      cases hmr : RateCounterPool.max_ready (RateCounterPool.can_add q.rate_counters now).1 now with
      | none =>
        left
        rfl
      | some r =>
        right
        have hr1 := pool_max_ready_state _ _ _ hmr
        show (if 0 < r.2 then
            (({ queue := q.queue, queue_limit := q.queue_limit, rate_counters := r.1 } :
                TaskQueue α), some (queue_status.unavailable, some r.2))
          else
            (({ queue := q.queue, queue_limit := q.queue_limit, rate_counters := r.1 } :
                TaskQueue α), some (queue_status.not_started, none))).1.rate_counters
          = (RateCounterPool.can_add q.rate_counters now).1.map (fun c => c.maybe_reset now)
        by_cases hpos' : 0 < r.2
        · rw [if_pos hpos']
          exact hr1
        · rw [if_neg hpos']
          exact hr1

theorem posInvQ_status {α : Type} {q : TaskQueue α} {tb : Int} (now : Int)
    (h : PosInvQ q tb) (hle : tb ≤ now) (hpos : 0 < now) :
    PosInvQ (q.status now).1 now := by
  intro c' hc'
  cases status_counters_cases q now with
  | inl h1 =>
    rw [h1] at hc'
    exact posInvQ_can_add now h hle hpos c' hc'
  | inr h1 =>
    rw [h1, List.mem_map] at hc'
    obtain ⟨d, hd, rfl⟩ := hc'
    exact posInvC_maybe_reset now (posInvQ_can_add now h hle hpos d hd) (le_refl now) hpos

theorem posInv_run {α : Type} (ops : List (Op α)) :
    ∀ (q : TaskQueue α) (tb : Int), 0 < tb → opsLB tb ops = true → PosInvQ q tb →
      PosInvQ (runOps q ops) (opsLast tb ops) ∧ 0 < opsLast tb ops ∧ tb ≤ opsLast tb ops := by
  induction ops with
  | nil =>
    intro q tb hpos _ hinv
    exact ⟨hinv, hpos, le_refl tb⟩
  | cons op rest ih =>
    intro q tb hpos hlb hinv
    cases op with
    | put ts =>
      have hlb' : opsLB tb rest = true := hlb
      have hinv' : PosInvQ (q.step (Op.put ts)) tb := by
        intro c hc
        rw [TaskQueue.step, put_rate_counters] at hc
        exact hinv c hc
      exact ih _ tb hpos hlb' hinv'
    | get n =>
      rw [opsLB, Bool.and_eq_true, decide_eq_true_eq] at hlb
      obtain ⟨hn, hlb'⟩ := hlb
      have hnpos : 0 < n := lt_of_lt_of_le hpos hn
      have hinv' : PosInvQ (q.step (Op.get n)) n := posInvQ_get n hinv hn hnpos
      obtain ⟨ha, hb, hc⟩ := ih _ n hnpos hlb' hinv'
      exact ⟨ha, hb, le_trans hn hc⟩
    | status n =>
      rw [opsLB, Bool.and_eq_true, decide_eq_true_eq] at hlb
      obtain ⟨hn, hlb'⟩ := hlb
      have hnpos : 0 < n := lt_of_lt_of_le hpos hn
      have hinv' : PosInvQ (q.step (Op.status n)) n := posInvQ_status n hinv hn hnpos
      obtain ⟨ha, hb, hc⟩ := ih _ n hnpos hlb' hinv'
      exact ⟨ha, hb, le_trans hn hc⟩

theorem opsLB_append_one {α : Type} (ops : List (Op α)) :
    ∀ (tb now : Int), opsLB tb (ops ++ [Op.status now]) = true →
      opsLB tb ops = true ∧ opsLast tb ops ≤ now := by
  induction ops with
  | nil =>
    intro tb now h
    rw [List.nil_append, opsLB, Bool.and_eq_true, decide_eq_true_eq] at h
    exact ⟨rfl, h.1⟩
  | cons op rest ih =>
    intro tb now h
    cases op with
    | put ts => exact ih tb now h
    | get n =>
      rw [List.cons_append, opsLB, Bool.and_eq_true, decide_eq_true_eq] at h
      obtain ⟨hn, h'⟩ := h
      obtain ⟨ha, hb⟩ := ih n now h'
      constructor
      · rw [opsLB, Bool.and_eq_true, decide_eq_true_eq]
        exact ⟨hn, ha⟩
      · exact hb
    | status n =>
      rw [List.cons_append, opsLB, Bool.and_eq_true, decide_eq_true_eq] at h
      obtain ⟨hn, h'⟩ := h
      obtain ⟨ha, hb⟩ := ih n now h'
      constructor
      · rw [opsLB, Bool.and_eq_true, decide_eq_true_eq]
        exact ⟨hn, ha⟩
      · exact hb

theorem ruleOK_fields {x : List Int} (h : ruleOK x = true) :
    0 < x.getD 0 0 ∧ 0 < x.getD 1 0 := by
  rw [ruleOK, Bool.and_eq_true, Bool.and_eq_true] at h
  obtain ⟨⟨-, h1⟩, h2⟩ := h
  rw [decide_eq_true_eq] at h1 h2
  exact ⟨h1, h2⟩

theorem mkNew_posInv {α : Type} {rules : List (List Int)} {lim : Option Int} {q0 : TaskQueue α}
    (h : TaskQueue.mkNew α rules lim = some q0) (tb : Int) : PosInvQ q0 tb := by
  rw [TaskQueue.mkNew] at h
  by_cases hv : rulesValid rules = true
  · simp only [hv, if_true, Option.some.injEq] at h
    subst h
    intro c hc
    simp only [List.mem_map] at hc
    obtain ⟨x, hx, rfl⟩ := hc
    rw [rulesValid, List.all_eq_true] at hv
    obtain ⟨h1, h2⟩ := ruleOK_fields (hv x hx)
    exact ⟨h1, h2, le_refl 0, le_of_lt h1, fun hc => absurd rfl hc, fun s hs => by
      simp [mkRateCounter] at hs⟩
  · simp [hv] at h

theorem pool_can_add_false_mem (cs : List RateCounter) (now : Int)
    (h : (RateCounterPool.can_add cs now).2 = false) :
    ∃ c' ∈ (RateCounterPool.can_add cs now).1,
      c'.maybe_reset now = c' ∧ ¬ (c'.count < c'.limit) := by
  induction cs with
  | nil => simp [RateCounterPool.can_add] at h
  | cons c cs ih =>
    by_cases hb : (c.maybe_reset now).count < (c.maybe_reset now).limit
    · rw [pool_can_add_cons_pos cs hb] at h ⊢
      obtain ⟨c', hmem, hfix, hcnt⟩ := ih h
      exact ⟨c', List.mem_cons_of_mem _ hmem, hfix, hcnt⟩
    · rw [pool_can_add_cons_neg cs hb]
      exact ⟨c.maybe_reset now, List.mem_cons_self _ _, maybe_reset_idem c now, hb⟩

/-- C10: from any state reachable by put/get/status calls whose clock
readings are strictly positive and non-decreasing (as ceiling-of-wall-clock
readings are), `status()` never reports `not_started` (and never raises):
it reports `available`, `empty`, or `unavailable` with a positive `ttl`. -/
theorem status_never_not_started
    (rules : List (List Int)) (lim : Option Int) (q0 : TaskQueue Nat)
    (ops : List (Op Nat)) (now : Int)
    (h0 : TaskQueue.mkNew Nat rules lim = some q0)
    (hm : opsLB 1 (ops ++ [Op.status now]) = true) :
    ((runOps q0 ops).status now).2 = some (queue_status.available, none) ∨
    ((runOps q0 ops).status now).2 = some (queue_status.empty, none) ∨
    ∃ t, 0 < t ∧ ((runOps q0 ops).status now).2 = some (queue_status.unavailable, some t) := by
  obtain ⟨hlb, hlast⟩ := opsLB_append_one ops 1 now hm
  obtain ⟨hinv, hpos, -⟩ := posInv_run ops q0 1 one_pos hlb (mkNew_posInv h0 1)
  have hnow : 0 < now := lt_of_lt_of_le hpos hlast
  by_cases hcd : ((RateCounterPool.can_add (runOps q0 ops).rate_counters now).2
      && !(runOps q0 ops).queue.isEmpty) = true
  · left
    simp only [TaskQueue.status, hcd, if_true]
  · by_cases he : (runOps q0 ops).queue.isEmpty = true
    · right; left
      simp only [TaskQueue.status]
      rw [if_neg hcd, if_pos he]
    · right; right
      have hb : (RateCounterPool.can_add (runOps q0 ops).rate_counters now).2 = false := by
        rcases Bool.eq_false_or_eq_true
            (RateCounterPool.can_add (runOps q0 ops).rate_counters now).2 with hb | hb
        · exfalso
          apply hcd
          rw [Bool.and_eq_true]
          refine ⟨hb, ?_⟩
          have he2 : (runOps q0 ops).queue.isEmpty = false := by
            rwa [Bool.not_eq_true] at he
          rw [he2]
          rfl
        · exact hb
      obtain ⟨c', hmem, hfix, hcnt⟩ := pool_can_add_false_mem _ now hb
      obtain ⟨hl, hi, hc0, hcl, hcstart, hsfacts⟩ :=
        posInvQ_can_add now hinv hlast hnow c' hmem
      have hcntpos : c'.count ≠ 0 := by omega
      obtain ⟨s, hs⟩ : ∃ s, c'.start = some s := by
        cases hos : c'.start with
        | none => exact absurd hos (hcstart hcntpos)
        | some s => exact ⟨s, rfl⟩
      obtain ⟨hspos, -⟩ := hsfacts s hs
      have hnexp : now - s < c'.interval := by
        by_contra hge
        push_neg at hge
        have hr := maybe_reset_of_expired c' now ⟨s, hs, ne_of_gt hspos, hge⟩
        rw [hfix] at hr
        have : c'.count = 0 := congrArg RateCounter.count hr
        exact hcntpos this
      have htur : (c'.time_until_ready now).2 = c'.interval - (now - s) := by
        simp only [RateCounter.time_until_ready, hfix, hs, hcnt, if_false]
      have hturpos : 0 < (c'.time_until_ready now).2 := by
        rw [htur]
        omega
      have hne : (RateCounterPool.can_add (runOps q0 ops).rate_counters now).1 ≠ [] :=
        List.ne_nil_of_mem hmem
      obtain ⟨r, hr⟩ := pool_max_ready_isSome _ now hne
      have hge := pool_max_ready_ge _ now r hr c' hmem
      have hrpos : 0 < r.2 := lt_of_lt_of_le hturpos hge
      refine ⟨r.2, hrpos, ?_⟩
      simp only [TaskQueue.status]
      rw [if_neg hcd, if_neg he, hr]
      show (if 0 < r.2 then
          (({ queue := (runOps q0 ops).queue, queue_limit := (runOps q0 ops).queue_limit,
              rate_counters := r.1 } : TaskQueue Nat),
            some (queue_status.unavailable, some r.2))
        else
          (({ queue := (runOps q0 ops).queue, queue_limit := (runOps q0 ops).queue_limit,
              rate_counters := r.1 } : TaskQueue Nat),
            some (queue_status.not_started, none))).2
        = some (queue_status.unavailable, some r.2)
      rw [if_pos hrpos]

/-- Witness for `status_never_not_started`: rule `(1, 5)`, one `get` at
time 1, `status` at time 3 — the report is rate-gated, not `not_started`. -/
theorem status_never_not_started_witness :
    ((runOps (⟨[], none, [⟨1, 5, 0, none⟩]⟩ : TaskQueue Nat) [Op.put [0, 1], Op.get 1]).status 3).2
        = some (queue_status.available, none) ∨
    ((runOps (⟨[], none, [⟨1, 5, 0, none⟩]⟩ : TaskQueue Nat) [Op.put [0, 1], Op.get 1]).status 3).2
        = some (queue_status.empty, none) ∨
    ∃ t, 0 < t ∧
      ((runOps (⟨[], none, [⟨1, 5, 0, none⟩]⟩ : TaskQueue Nat)
          [Op.put [0, 1], Op.get 1]).status 3).2 = some (queue_status.unavailable, some t) :=
  status_never_not_started [[1, 5]] none ⟨[], none, [⟨1, 5, 0, none⟩]⟩
    [Op.put [0, 1], Op.get 1] 3 (by decide) (by decide)

/-- C5 as amended: for states reachable under strictly positive,
non-decreasing clock readings, every counter satisfies
`0 <= count <= limit`, every started window started at a positive time,
and on any later access finding the window expired `_maybe_reset` does
reset it (count to 0, window start to now) before its value is read. -/
theorem positive_trace_counter_invariant
    (rules : List (List Int)) (lim : Option Int) (q0 : TaskQueue Nat) (ops : List (Op Nat))
    (h0 : TaskQueue.mkNew Nat rules lim = some q0)
    (hlb : opsLB 1 ops = true) :
    ∀ c ∈ (runOps q0 ops).rate_counters,
      (0 ≤ c.count ∧ c.count ≤ c.limit) ∧
      (∀ s, c.start = some s → 0 < s ∧
        ∀ now, c.interval ≤ now - s → c.maybe_reset now = rcReset c now) := by
  obtain ⟨hinv, -, -⟩ := posInv_run ops q0 1 one_pos hlb (mkNew_posInv h0 1)
  intro c hc
  obtain ⟨h1, h2, h3, h4, h5, h6⟩ := hinv c hc
  refine ⟨⟨h3, h4⟩, ?_⟩
  intro s hs
  refine ⟨(h6 s hs).1, ?_⟩
  intro now hge
  exact maybe_reset_of_expired c now ⟨s, hs, ne_of_gt (h6 s hs).1, hge⟩

/-- Witness for `positive_trace_counter_invariant`: the counter reached by a
`get` at time 1 under rule `(1, 5)` has `count = 1 ∈ [0, 1]`, window start
`1 > 0`, and an access at time 6 (expired) resets it. -/
theorem positive_trace_counter_invariant_witness :
    ((0 : Int) ≤ 1 ∧ (1 : Int) ≤ 1) ∧
    ((0 : Int) < 1 ∧
      RateCounter.maybe_reset ⟨1, 5, 1, some 1⟩ 6 = rcReset ⟨1, 5, 1, some 1⟩ 6) := by
  have h := positive_trace_counter_invariant [[1, 5]] none
    (⟨[], none, [⟨1, 5, 0, none⟩]⟩ : TaskQueue Nat) [Op.put [0, 1], Op.get 1]
    (by decide) (by decide) ⟨1, 5, 1, some 1⟩ (by decide)
  exact ⟨h.1, (h.2 1 rfl).1, (h.2 1 rfl).2 6 (by decide)⟩

theorem mr_get_disj {cs cs' : List RateCounter} {now : Int} (i : Nat)
    (h : cs'.get? i = cs.get? i ∨ cs'.get? i = (cs.get? i).map (fun c => c.maybe_reset now)) :
    cs'.get? i = cs.get? i ∨
    ∃ c, cs.get? i = some c ∧ rcExpired c now ∧ cs'.get? i = some (rcReset c now) := by
  rcases h with h | h
  · left; exact h
  · cases hc : cs.get? i with
    | none =>
      left
      rw [h, hc]
      rfl
    | some c =>
      rcases maybe_reset_cases c now with hm | ⟨he, hm⟩
      · left
        rw [h, hc]
        simp [hm]
      · right
        refine ⟨c, rfl, he, ?_⟩
        rw [h, hc]
        simp [hm]

theorem pool_can_add_idem (cs : List RateCounter) (now : Int) :
    RateCounterPool.can_add (RateCounterPool.can_add cs now).1 now
      = RateCounterPool.can_add cs now := by
  induction cs with
  | nil => rfl
  | cons c cs ih =>
    by_cases hb : (c.maybe_reset now).count < (c.maybe_reset now).limit
    · rw [pool_can_add_cons_pos cs hb]
      have hb' : ((c.maybe_reset now).maybe_reset now).count
          < ((c.maybe_reset now).maybe_reset now).limit := by
        rw [maybe_reset_idem]
        exact hb
      rw [pool_can_add_cons_pos _ hb', maybe_reset_idem, ih]
    · rw [pool_can_add_cons_neg cs hb]
      have hb' : ¬ ((c.maybe_reset now).maybe_reset now).count
          < ((c.maybe_reset now).maybe_reset now).limit := by
        rw [maybe_reset_idem]
        exact hb
      rw [pool_can_add_cons_neg _ hb', maybe_reset_idem]

theorem pool_can_add_fixed_state (cs : List RateCounter) (now : Int)
    (h : ∀ c ∈ cs, c.maybe_reset now = c) :
    (RateCounterPool.can_add cs now).1 = cs := by
  induction cs with
  | nil => rfl
  | cons c cs ih =>
    have hc := h c (List.mem_cons_self c cs)
    by_cases hb : (c.maybe_reset now).count < (c.maybe_reset now).limit
    · rw [pool_can_add_cons_pos cs hb]
      show c.maybe_reset now :: (RateCounterPool.can_add cs now).1 = c :: cs
      rw [hc, ih (fun d hd => h d (List.mem_cons_of_mem c hd))]
    · rw [pool_can_add_cons_neg cs hb]
      show c.maybe_reset now :: cs = c :: cs
      rw [hc]

theorem pool_can_add_map_mr (cs : List RateCounter) (now : Int) :
    (RateCounterPool.can_add (cs.map (fun c => c.maybe_reset now)) now).1
      = cs.map (fun c => c.maybe_reset now) := by
  apply pool_can_add_fixed_state
  intro c hc
  rw [List.mem_map] at hc
  obtain ⟨d, -, rfl⟩ := hc
  exact maybe_reset_idem d now

theorem rc_tur_mr (c : RateCounter) (now : Int) :
    (c.maybe_reset now).time_until_ready now
      = (c.maybe_reset now, (c.time_until_ready now).2) := by
  have hid := maybe_reset_idem c now
  cases hs : (c.maybe_reset now).start with
  | none => simp [RateCounter.time_until_ready, hid, hs]
  | some s =>
    by_cases hcnt : (c.maybe_reset now).count < (c.maybe_reset now).limit
    · simp [RateCounter.time_until_ready, hid, hs, hcnt]
    · simp [RateCounter.time_until_ready, hid, hs, hcnt]

theorem pool_max_ready_idem (cs : List RateCounter) (now : Int)
    (p : List RateCounter × Int) (h : RateCounterPool.max_ready cs now = some p) :
    RateCounterPool.max_ready p.1 now = some p := by
  induction cs generalizing p with
  | nil => simp [RateCounterPool.max_ready] at h
  | cons c cs ih =>
    cases cs with
    | nil =>
      simp only [RateCounterPool.max_ready, Option.some.injEq] at h
      subst h
      show RateCounterPool.max_ready [(c.time_until_ready now).1] now = _
      rw [rc_tur_state]
      simp only [RateCounterPool.max_ready, rc_tur_mr]
    | cons c2 cs2 =>
      rw [RateCounterPool.max_ready] at h
      cases hrec : RateCounterPool.max_ready (c2 :: cs2) now with
      | none => rw [hrec] at h; exact absurd h (by simp)
      | some q =>
        rw [hrec] at h
        simp only [Option.some.injEq] at h
        subst h
        have hq1 : q.1 = (c2 :: cs2).map (fun c => c.maybe_reset now) :=
          pool_max_ready_state _ _ _ hrec
        have hrecq : RateCounterPool.max_ready q.1 now = some q := ih q hrec
        show RateCounterPool.max_ready ((c.time_until_ready now).1 :: q.1) now = _
        rw [rc_tur_state, hq1]
        rw [List.map_cons, RateCounterPool.max_ready]
        rw [hq1, List.map_cons] at hrecq
        rw [hrecq]
        rw [rc_tur_mr]
        simp only [Option.some.injEq, Prod.mk.injEq]
        constructor
        · rw [hq1, List.map_cons]
        · trivial

/-- C2 as amended: `status()` leaves the queued task sequence and the queue
limit unchanged, and leaves every rate counter unchanged except that a
counter whose window has expired may be lazily reset (count to 0,
window start to now); a repeated `status()` call at the same timestamp
returns the same result and changes nothing further. -/
theorem status_frame_and_idempotent {α : Type} (q : TaskQueue α) (now : Int) :
    (q.status now).1.queue = q.queue ∧
    (q.status now).1.queue_limit = q.queue_limit ∧
    (∀ i : Nat,
      (q.status now).1.rate_counters.get? i = q.rate_counters.get? i ∨
      ∃ c, q.rate_counters.get? i = some c ∧ rcExpired c now ∧
        (q.status now).1.rate_counters.get? i = some (rcReset c now)) ∧
    TaskQueue.status (q.status now).1 now = q.status now := by
  by_cases hcd : ((RateCounterPool.can_add q.rate_counters now).2 && !q.queue.isEmpty) = true
  · have hq1 : q.status now
        = ({ q with rate_counters := (RateCounterPool.can_add q.rate_counters now).1 },
           some (queue_status.available, none)) := by
      simp only [TaskQueue.status, hcd, if_true]
    rw [hq1]
    refine ⟨rfl, rfl, fun i => mr_get_disj i (pool_can_add_elem q.rate_counters now i), ?_⟩
    have hcd2 : ((RateCounterPool.can_add
        (RateCounterPool.can_add q.rate_counters now).1 now).2 && !q.queue.isEmpty) = true := by
      rw [pool_can_add_idem]
      exact hcd
    simp only [TaskQueue.status, hcd2, if_true]
    rw [pool_can_add_idem]
  · by_cases he : q.queue.isEmpty = true
    · have hq1 : q.status now
          = ({ q with rate_counters := (RateCounterPool.can_add q.rate_counters now).1 },
             some (queue_status.empty, none)) := by
        simp only [TaskQueue.status]
        rw [if_neg hcd, if_pos he]
      rw [hq1]
      refine ⟨rfl, rfl, fun i => mr_get_disj i (pool_can_add_elem q.rate_counters now i), ?_⟩
      have hcd2 : ¬ ((RateCounterPool.can_add
          (RateCounterPool.can_add q.rate_counters now).1 now).2 && !q.queue.isEmpty) = true := by
        rw [he]
        simp
      simp only [TaskQueue.status]
      rw [if_neg hcd2, if_pos he, pool_can_add_idem]
    · have hb : (RateCounterPool.can_add q.rate_counters now).2 = false := by
        rcases Bool.eq_false_or_eq_true
            (RateCounterPool.can_add q.rate_counters now).2 with h | h
        · exfalso
          apply hcd
          rw [Bool.and_eq_true]
          refine ⟨h, ?_⟩
          have he2 : q.queue.isEmpty = false := by rwa [Bool.not_eq_true] at he
          rw [he2]
          rfl
        · exact h
      have hcs1ne : (RateCounterPool.can_add q.rate_counters now).1 ≠ [] := by
        intro hnil
        have hlen := pool_can_add_length q.rate_counters now
        rw [hnil] at hlen
        have hcs : q.rate_counters = [] := List.eq_nil_of_length_eq_zero hlen.symm
        rw [hcs] at hb
        simp [RateCounterPool.can_add] at hb
      obtain ⟨r, hr⟩ := pool_max_ready_isSome _ now hcs1ne
      have hr1 : r.1 = (RateCounterPool.can_add q.rate_counters now).1.map
          (fun c => c.maybe_reset now) := pool_max_ready_state _ _ _ hr
      have hq1 : q.status now
          = ({ q with rate_counters := r.1 },
             if 0 < r.2 then some (queue_status.unavailable, some r.2)
             else some (queue_status.not_started, none)) := by
        simp only [TaskQueue.status]
        rw [if_neg hcd, if_neg he, hr]
        show (if 0 < r.2 then
            (({ queue := q.queue, queue_limit := q.queue_limit, rate_counters := r.1 } :
                TaskQueue α), some (queue_status.unavailable, some r.2))
          else
            (({ queue := q.queue, queue_limit := q.queue_limit, rate_counters := r.1 } :
                TaskQueue α), some (queue_status.not_started, none))) = _
        by_cases hrp : 0 < r.2
        · rw [if_pos hrp, if_pos hrp]
        · rw [if_neg hrp, if_neg hrp]
      rw [hq1]
      have hdisj : ∀ i : Nat,
          r.1.get? i = q.rate_counters.get? i ∨
          r.1.get? i = (q.rate_counters.get? i).map (fun c => c.maybe_reset now) := by
        intro i
        right
        rw [hr1, List.get?_map]
        rcases pool_can_add_elem q.rate_counters now i with h | h
        · rw [h]
        · rw [h]
          cases hc : q.rate_counters.get? i with
          | none => rfl
          | some c => simp [maybe_reset_idem]
      refine ⟨rfl, rfl, fun i => mr_get_disj i (hdisj i), ?_⟩
      have hfix : ∀ c ∈ r.1, c.maybe_reset now = c := by
        rw [hr1]
        intro c hc
        rw [List.mem_map] at hc
        obtain ⟨d, -, rfl⟩ := hc
        exact maybe_reset_idem d now
      have hstate : (RateCounterPool.can_add r.1 now).1 = r.1 :=
        pool_can_add_fixed_state _ _ hfix
      have hb2 : (RateCounterPool.can_add r.1 now).2 = false := by
        rcases Bool.eq_false_or_eq_true (RateCounterPool.can_add r.1 now).2 with h | h
        · exfalso
          have hall := (pool_can_add_true_iff r.1 now).1 h
          obtain ⟨c', hmem, hfx, hcnt⟩ := pool_can_add_false_mem q.rate_counters now hb
          have hc'in : c' ∈ r.1 := by
            rw [hr1, List.mem_map]
            exact ⟨c', hmem, hfx⟩
          have hadm := hall c' hc'in
          rw [rcAdmits, hfx] at hadm
          exact hcnt hadm
        · exact h
      have hcd2 : ¬ ((RateCounterPool.can_add r.1 now).2 && !q.queue.isEmpty) = true := by
        rw [hb2]
        simp
      have hmr2 : RateCounterPool.max_ready (RateCounterPool.can_add r.1 now).1 now = some r := by
        rw [hstate]
        exact pool_max_ready_idem _ now r hr
      simp only [TaskQueue.status]
      rw [if_neg hcd2, if_neg he, hmr2]
      show (if 0 < r.2 then
          (({ queue := q.queue, queue_limit := q.queue_limit, rate_counters := r.1 } :
              TaskQueue α), some (queue_status.unavailable, some r.2))
        else
          (({ queue := q.queue, queue_limit := q.queue_limit, rate_counters := r.1 } :
              TaskQueue α), some (queue_status.not_started, none))) = _
      by_cases hrp : 0 < r.2
      · rw [if_pos hrp, if_pos hrp]
      · rw [if_neg hrp, if_neg hrp]

/-- Witness for `status_frame_and_idempotent` at a concrete rate-gated
queue. -/
theorem status_frame_and_idempotent_witness :
    ((⟨[1], none, [⟨1, 5, 1, some 1⟩]⟩ : TaskQueue Nat).status 3).1.queue = [1] ∧
    TaskQueue.status ((⟨[1], none, [⟨1, 5, 1, some 1⟩]⟩ : TaskQueue Nat).status 3).1 3
      = (⟨[1], none, [⟨1, 5, 1, some 1⟩]⟩ : TaskQueue Nat).status 3 := by
  have h := status_frame_and_idempotent (⟨[1], none, [⟨1, 5, 1, some 1⟩]⟩ : TaskQueue Nat) 3
  exact ⟨h.1, h.2.2.2⟩

/-! ### The 2N sliding-window bound for the fixed-window limiter -/

theorem blockTimes_nil : blockTimes [] = [] := rfl

theorem blockTimes_cons (b : Int × List Int) (rest : List (Int × List Int)) :
    blockTimes (b :: rest) = b.2 ++ blockTimes rest := rfl

theorem blockTimes_cons2 (s : Int) (ts : List Int) (rest : List (Int × List Int)) :
    blockTimes ((s, ts) :: rest) = ts ++ blockTimes rest := rfl

theorem cntIn_append (a T : Int) (l1 l2 : List Int) :
    cntIn a T (l1 ++ l2) = cntIn a T l1 + cntIn a T l2 :=
  List.countP_append _ l1 l2

theorem cntIn_le_length (a T : Int) (l : List Int) : cntIn a T l ≤ l.length :=
  List.countP_le_length _

theorem cntIn_eq_zero {a T : Int} {l : List Int}
    (h : ∀ t ∈ l, ¬ (a ≤ t ∧ t < a + T)) : cntIn a T l = 0 := by
  rw [cntIn, List.countP_eq_zero]
  intro t ht
  simp only [Bool.and_eq_true, decide_eq_true_eq]
  exact fun hp => h t ht ⟨hp.1, hp.2⟩

theorem cntIn_perm {a T : Int} {l1 l2 : List Int} (h : l1.Perm l2) :
    cntIn a T l1 = cntIn a T l2 :=
  h.countP_eq _

theorem rblocks_head {T N s : Int} {ts : List Int} {rest : List (Int × List Int)}
    (h : RBlocksOK T N ((s, ts) :: rest)) :
    (ts.length : Int) ≤ N ∧ ∀ t ∈ ts, s ≤ t := by
  cases rest with
  | nil => exact h
  | cons b2 rest2 =>
    obtain ⟨s2, ts2⟩ := b2
    exact h.1

theorem rblocks_tail {T N : Int} {b : Int × List Int} {rest : List (Int × List Int)}
    (h : RBlocksOK T N (b :: rest)) : RBlocksOK T N rest := by
  obtain ⟨s, ts⟩ := b
  cases rest with
  | nil => trivial
  | cons b2 rest2 =>
    obtain ⟨s2, ts2⟩ := b2
    exact h.2.2.2

theorem rblocks_lt {T N : Int} (hT : 0 < T) :
    ∀ (rest : List (Int × List Int)) (s2 : Int) (ts2 : List Int),
      RBlocksOK T N ((s2, ts2) :: rest) → ∀ t ∈ blockTimes rest, t < s2 := by
  intro rest
  induction rest with
  | nil =>
    intro s2 ts2 _ t ht
    simp [blockTimes] at ht
  | cons b3 rest3 ih =>
    intro s2 ts2 h t ht
    obtain ⟨s3, ts3⟩ := b3
    have hlink : s3 + T ≤ s2 := h.2.1
    have hlt : ∀ t ∈ ts3, t < s2 := h.2.2.1
    have htail : RBlocksOK T N ((s3, ts3) :: rest3) := h.2.2.2
    rw [blockTimes_cons, List.mem_append] at ht
    rcases ht with ht | ht
    · exact hlt t ht
    · have := ih s3 ts3 htail t ht
      omega

theorem rblocks_cnt {T N : Int} (hT : 0 < T) (hN : 0 ≤ N) :
    ∀ bs, RBlocksOK T N bs → ∀ a, (cntIn a T (blockTimes bs) : Int) ≤ 2 * N := by
  intro bs
  induction bs with
  | nil =>
    intro _ a
    rw [blockTimes_nil]
    show ((cntIn a T [] : Nat) : Int) ≤ 2 * N
    rw [cntIn]
    simp
    omega
  | cons b rest ih =>
    intro hok a
    obtain ⟨s, ts⟩ := b
    have hhead := rblocks_head hok
    by_cases hin : ∃ t ∈ ts, a ≤ t ∧ t < a + T
    · cases rest with
      | nil =>
        rw [blockTimes_cons2, blockTimes_nil, List.append_nil]
        have h1 : (cntIn a T ts : Int) ≤ (ts.length : Int) := by
          exact_mod_cast cntIn_le_length a T ts
        have := hhead.1
        omega
      | cons b2 rest2 =>
        obtain ⟨s2, ts2⟩ := b2
        obtain ⟨t1, ht1m, ht1a, ht1b⟩ := hin
        have hs_t1 : s ≤ t1 := hhead.2 t1 ht1m
        have hlink : s2 + T ≤ s := hok.2.1
        have htail : RBlocksOK T N ((s2, ts2) :: rest2) := hok.2.2.2
        have hhead2 := rblocks_head htail
        have hzero : cntIn a T (blockTimes rest2) = 0 := by
          apply cntIn_eq_zero
          intro t ht
          have hts2 : t < s2 := rblocks_lt hT rest2 s2 ts2 htail t ht
          rintro ⟨hat, -⟩
          omega
        rw [blockTimes_cons2, blockTimes_cons2, ← List.append_assoc, cntIn_append, cntIn_append,
          hzero]
        have h1 : (cntIn a T ts : Int) ≤ (ts.length : Int) := by
          exact_mod_cast cntIn_le_length a T ts
        have h2 : (cntIn a T ts2 : Int) ≤ (ts2.length : Int) := by
          exact_mod_cast cntIn_le_length a T ts2
        have hl1 := hhead.1
        have hl2 := hhead2.1
        push_cast
        omega
    · push_neg at hin
      have hz : cntIn a T ts = 0 := by
        apply cntIn_eq_zero
        intro t ht hp
        have := hin t ht hp.1
        omega
      rw [blockTimes_cons2, cntIn_append, hz]
      have := ih (rblocks_tail hok) a
      omega

theorem rblocks_replace_head {T N s : Int} {ts ts' : List Int} {rest : List (Int × List Int)}
    (h : RBlocksOK T N ((s, ts) :: rest)) (hlen : (ts'.length : Int) ≤ N)
    (hge : ∀ t ∈ ts', s ≤ t) : RBlocksOK T N ((s, ts') :: rest) := by
  cases rest with
  | nil => exact ⟨hlen, hge⟩
  | cons b2 rest2 =>
    obtain ⟨s2, ts2⟩ := b2
    exact ⟨⟨hlen, hge⟩, h.2.1, h.2.2.1, h.2.2.2⟩

theorem ctrB_mono {c : RateCounter} {es : List Int} {tb tb' : Int}
    (h : CtrBlocks c es tb) (hle : tb ≤ tb') : CtrBlocks c es tb' := by
  obtain ⟨h1, h2, h3⟩ := h
  refine ⟨h1, h2, ?_⟩
  cases hs : c.start with
  | none =>
    simp only [hs] at h3 ⊢
    exact h3
  | some s =>
    simp only [hs] at h3 ⊢
    obtain ⟨cur, past, hp, hc, hb, hstb, hcur⟩ := h3
    exact ⟨cur, past, hp, hc, hb, le_trans hstb hle, hcur⟩

theorem ctrB_maybe_reset {c : RateCounter} {es : List Int} {tb : Int} (now : Int)
    (h : CtrBlocks c es tb) (hle : tb ≤ now) : CtrBlocks (c.maybe_reset now) es now := by
  cases hs : c.start with
  | none =>
    have hmr : c.maybe_reset now = c := by simp [RateCounter.maybe_reset, hs]
    rw [hmr]
    exact ctrB_mono h hle
  | some s =>
    by_cases hcond : s ≠ 0 ∧ c.interval ≤ now - s
    · have hmr : c.maybe_reset now = { c with start := some now, count := 0 } := by
        simp only [RateCounter.maybe_reset, hs]
        rw [if_pos hcond]
      obtain ⟨h1, h2, h3⟩ := h
      simp only [hs] at h3
      obtain ⟨cur, past, hp, hcnt, hb, hstb, hcur⟩ := h3
      rw [hmr]
      refine ⟨h1, h2, ?_⟩
      show ∃ cur' past', es.Perm (cur' ++ blockTimes past') ∧
        (0 : Int) = (cur'.length : Int) ∧
        RBlocksOK c.interval c.limit ((now, cur') :: past') ∧
        now ≤ now ∧ (∀ t ∈ cur', now ≠ 0 → t - now < c.interval)
      refine ⟨[], (s, cur) :: past, ?_, by simp, ?_, le_refl now, by simp⟩
      · rw [List.nil_append, blockTimes_cons2]
        exact hp
      · show RBlocksOK c.interval c.limit ((now, []) :: (s, cur) :: past)
        refine ⟨⟨by simpa using le_of_lt h1, by simp⟩, by omega, ?_, hb⟩
        intro t ht
        have := hcur t ht hcond.1
        omega
    · have hmr : c.maybe_reset now = c := by
        simp only [RateCounter.maybe_reset, hs]
        rw [if_neg hcond]
      rw [hmr]
      exact ctrB_mono h hle

theorem ctrB_increment {c : RateCounter} {es : List Int} {now : Int}
    (h : CtrBlocks c es now) (hcnt : c.count < c.limit) :
    CtrBlocks (c.increment now) (es ++ [now]) now := by
  obtain ⟨h1, h2, h3⟩ := h
  cases hs : c.start with
  | none =>
    simp only [hs] at h3
    obtain ⟨hes, hc0⟩ := h3
    have hinc : c.increment now = { c with start := some now, count := c.count + 1 } := by
      have hne : ¬ rcExpired ({ c with start := some now }) now := by
        rintro ⟨s, hs', h0, hi⟩
        have : now = s := by simpa using hs'
        subst this
        have hi' : c.interval ≤ now - now := hi
        omega
      simp only [RateCounter.increment, hs]
      rw [maybe_reset_of_not_expired _ _ hne]
    rw [hinc]
    refine ⟨h1, h2, ?_⟩
    show ∃ cur' past', (es ++ [now]).Perm (cur' ++ blockTimes past') ∧
      c.count + 1 = (cur'.length : Int) ∧
      RBlocksOK c.interval c.limit ((now, cur') :: past') ∧
      now ≤ now ∧ (∀ t ∈ cur', now ≠ 0 → t - now < c.interval)
    refine ⟨[now], [], ?_, by rw [hc0]; simp, ?_, le_refl now, ?_⟩
    · rw [hes, blockTimes_nil, List.append_nil, List.nil_append]
    · exact ⟨by simpa using h1, by simp⟩
    · intro t ht _
      simp only [List.mem_singleton] at ht
      omega
  | some s =>
    simp only [hs] at h3
    obtain ⟨cur, past, hp, hcount, hb, hstb, hcur⟩ := h3
    by_cases hcond : s ≠ 0 ∧ c.interval ≤ now - s
    · have hinc : c.increment now = { c with start := some now, count := 0 + 1 } := by
        simp only [RateCounter.increment, hs]
        have : c.maybe_reset now = { c with start := some now, count := 0 } := by
          simp only [RateCounter.maybe_reset, hs]
          rw [if_pos hcond]
        rw [this]
      rw [hinc]
      refine ⟨h1, h2, ?_⟩
      show ∃ cur' past', (es ++ [now]).Perm (cur' ++ blockTimes past') ∧
        (0 : Int) + 1 = (cur'.length : Int) ∧
        RBlocksOK c.interval c.limit ((now, cur') :: past') ∧
        now ≤ now ∧ (∀ t ∈ cur', now ≠ 0 → t - now < c.interval)
      refine ⟨[now], (s, cur) :: past, ?_, by simp, ?_, le_refl now, ?_⟩
      · have h1p : (es ++ [now]).Perm ((cur ++ blockTimes past) ++ [now]) :=
          hp.append_right [now]
        have h2p : ((cur ++ blockTimes past) ++ [now]).Perm
            (now :: (cur ++ blockTimes past)) := List.perm_append_singleton _ _
        have := h1p.trans h2p
        rw [blockTimes_cons2]
        exact this
      · show RBlocksOK c.interval c.limit ((now, [now]) :: (s, cur) :: past)
        refine ⟨⟨by simpa using h1, ?_⟩, by omega, ?_, hb⟩
        · intro t ht
          simp only [List.mem_singleton] at ht
          omega
        · intro t ht
          have := hcur t ht hcond.1
          omega
      · intro t ht _
        simp only [List.mem_singleton] at ht
        omega
    · have hinc : c.increment now
          = { limit := c.limit, interval := c.interval, count := c.count + 1,
              start := some s } := by
        simp only [RateCounter.increment, hs]
        have : c.maybe_reset now = c := by
          simp only [RateCounter.maybe_reset, hs]
          rw [if_neg hcond]
        rw [this, hs]
      rw [hinc]
      refine ⟨h1, h2, ?_⟩
      show ∃ cur' past', (es ++ [now]).Perm (cur' ++ blockTimes past') ∧
        c.count + 1 = (cur'.length : Int) ∧
        RBlocksOK c.interval c.limit ((s, cur') :: past') ∧
        s ≤ now ∧ (∀ t ∈ cur', s ≠ 0 → t - s < c.interval)
      refine ⟨now :: cur, past, ?_, ?_, ?_, hstb, ?_⟩
      · have h1p : (es ++ [now]).Perm ((cur ++ blockTimes past) ++ [now]) :=
          hp.append_right [now]
        have h2p : ((cur ++ blockTimes past) ++ [now]).Perm
            (now :: (cur ++ blockTimes past)) := List.perm_append_singleton _ _
        exact h1p.trans h2p
      · rw [hcount]
        simp only [List.length_cons]
        push_cast
        ring
      · apply rblocks_replace_head hb
        · rw [hcount] at hcnt
          simp only [List.length_cons]
          push_cast
          omega
        · intro t ht
          rcases List.mem_cons.1 ht with rfl | ht
          · exact hstb
          · exact (rblocks_head hb).2 t ht
      · intro t ht hs0
        rcases List.mem_cons.1 ht with rfl | ht
        · rcases not_and_or.1 hcond with h0 | hlt
          · exact absurd hs0 (by simpa using h0)
          · omega
        · exact hcur t ht hs0

theorem tqinv_can_add {α : Type} {q : TaskQueue α} {es : List Int} {tb : Int} (now : Int)
    (h : TQInv q es tb) (hle : tb ≤ now) :
    ∀ c' ∈ (RateCounterPool.can_add q.rate_counters now).1, CtrBlocks c' es now := by
  intro c' hc'
  obtain ⟨c, hc, hor⟩ := pool_can_add_mem q.rate_counters now c' hc'
  cases hor with
  | inl h1 => rw [h1]; exact ctrB_mono (h c hc) hle
  | inr h1 => rw [h1]; exact ctrB_maybe_reset now (h c hc) hle

theorem tqinv_get_none {α : Type} {q : TaskQueue α} {es : List Int} {tb : Int} (now : Int)
    (h : TQInv q es tb) (hle : tb ≤ now) (hres : (q.get now).2 = none) :
    TQInv (q.get now).1 es now := by
  by_cases hcd : ((RateCounterPool.can_add q.rate_counters now).2 && !q.queue.isEmpty) = true
  · exfalso
    rw [Bool.and_eq_true] at hcd
    simp only [TaskQueue.get, Bool.and_eq_true, hcd.1, hcd.2, if_true, true_and] at hres
    cases hq : q.queue with
    | nil =>
      rw [hq] at hcd
      simp at hcd
    | cons t ts =>
      rw [hq] at hres
      simp at hres
  · intro c' hc'
    simp only [Bool.not_eq_true] at hcd
    simp only [TaskQueue.get, hcd, Bool.false_eq_true, if_false] at hc'
    exact tqinv_can_add now h hle c' hc'

theorem tqinv_get_some {α : Type} {q : TaskQueue α} {es : List Int} {tb : Int} (now : Int)
    {t : α} (h : TQInv q es tb) (hle : tb ≤ now) (hres : (q.get now).2 = some t) :
    TQInv (q.get now).1 (es ++ [now]) now := by
  have hcd : ((RateCounterPool.can_add q.rate_counters now).2 && !q.queue.isEmpty) = true := by
    by_contra hcd
    simp only [Bool.not_eq_true] at hcd
    simp only [TaskQueue.get, hcd, Bool.false_eq_true, if_false] at hres
    exact Option.noConfusion hres
  have hb : (RateCounterPool.can_add q.rate_counters now).2 = true := by
    rw [Bool.and_eq_true] at hcd
    exact hcd.1
  intro c' hc'
  simp only [TaskQueue.get, hcd, if_true] at hc'
  simp only [RateCounterPool.increment, List.mem_map] at hc'
  obtain ⟨d, hd, rfl⟩ := hc'
  have hdinv : CtrBlocks d es now := tqinv_can_add now h hle d hd
  have hdcnt : d.count < d.limit := pool_can_add_true_counts _ _ hb d hd
  exact ctrB_increment hdinv hdcnt

theorem tqinv_status {α : Type} {q : TaskQueue α} {es : List Int} {tb : Int} (now : Int)
    (h : TQInv q es tb) (hle : tb ≤ now) : TQInv (q.status now).1 es now := by
  intro c' hc'
  cases status_counters_cases q now with
  | inl h1 =>
    rw [h1] at hc'
    exact tqinv_can_add now h hle c' hc'
  | inr h1 =>
    rw [h1, List.mem_map] at hc'
    obtain ⟨d, hd, rfl⟩ := hc'
    exact ctrB_maybe_reset now (tqinv_can_add now h hle d hd) (le_refl now)

theorem tqinv_put {α : Type} {q : TaskQueue α} {es : List Int} {tb : Int} (tasks : List α)
    (h : TQInv q es tb) : TQInv (q.put tasks).1 es tb := by
  intro c hc
  rw [put_rate_counters] at hc
  exact h c hc

theorem runEvents_put {α : Type} (q : TaskQueue α) (ts : List α) (rest : List (Op α)) :
    runEvents q (Op.put ts :: rest) = runEvents (q.put ts).1 rest := rfl

theorem runEvents_status {α : Type} (q : TaskQueue α) (n : Int) (rest : List (Op α)) :
    runEvents q (Op.status n :: rest) = runEvents (q.status n).1 rest := rfl

theorem runEvents_get_some {α : Type} (q : TaskQueue α) (n : Int) (rest : List (Op α))
    {t : α} (h : (q.get n).2 = some t) :
    runEvents q (Op.get n :: rest) = n :: runEvents (q.get n).1 rest := by
  simp only [runEvents, h]

theorem runEvents_get_none {α : Type} (q : TaskQueue α) (n : Int) (rest : List (Op α))
    (h : (q.get n).2 = none) :
    runEvents q (Op.get n :: rest) = runEvents (q.get n).1 rest := by
  simp only [runEvents, h]

theorem tqinv_run {α : Type} (ops : List (Op α)) :
    ∀ (q : TaskQueue α) (es : List Int) (tb : Int), TQInv q es tb → opsLB tb ops = true →
      ∃ tb', TQInv (runOps q ops) (es ++ runEvents q ops) tb' := by
  induction ops with
  | nil =>
    intro q es tb h _
    refine ⟨tb, ?_⟩
    simp only [runOps, runEvents, List.append_nil]
    exact h
  | cons op rest ih =>
    intro q es tb h hlb
    cases op with
    | put ts =>
      have hlb' : opsLB tb rest = true := hlb
      rw [runEvents_put]
      exact ih (q.put ts).1 es tb (tqinv_put ts h) hlb'
    | get n =>
      rw [opsLB, Bool.and_eq_true, decide_eq_true_eq] at hlb
      obtain ⟨hn, hlb'⟩ := hlb
      cases hres : (q.get n).2 with
      | none =>
        rw [runEvents_get_none q n rest hres]
        exact ih (q.get n).1 es n (tqinv_get_none n h hn hres) hlb'
      | some t =>
        rw [runEvents_get_some q n rest hres]
        have hstep := tqinv_get_some n h hn hres
        have := ih (q.get n).1 (es ++ [n]) n hstep hlb'
        rw [List.append_assoc] at this
        simpa using this
    | status n =>
      rw [opsLB, Bool.and_eq_true, decide_eq_true_eq] at hlb
      obtain ⟨hn, hlb'⟩ := hlb
      rw [runEvents_status]
      exact ih (q.status n).1 es n (tqinv_status n h hn) hlb'

theorem increment_limit (c : RateCounter) (now : Int) :
    (c.increment now).limit = c.limit := by
  cases hs : c.start with
  | none =>
    simp only [RateCounter.increment, hs]
    rw [maybe_reset_limit]
  | some s =>
    simp only [RateCounter.increment, hs]
    rw [maybe_reset_limit]

theorem increment_interval (c : RateCounter) (now : Int) :
    (c.increment now).interval = c.interval := by
  cases hs : c.start with
  | none =>
    simp only [RateCounter.increment, hs]
    rw [maybe_reset_interval]
  | some s =>
    simp only [RateCounter.increment, hs]
    rw [maybe_reset_interval]

theorem ctrSig_can_add (cs : List RateCounter) (now : Int) :
    ctrSig (RateCounterPool.can_add cs now).1 = ctrSig cs := by
  induction cs with
  | nil => rfl
  | cons c cs ih =>
    by_cases hb : (c.maybe_reset now).count < (c.maybe_reset now).limit
    · rw [pool_can_add_cons_pos cs hb]
      show ((c.maybe_reset now).limit, (c.maybe_reset now).interval)
          :: ctrSig (RateCounterPool.can_add cs now).1 = _
      rw [maybe_reset_limit, maybe_reset_interval, ih]
      rfl
    · rw [pool_can_add_cons_neg cs hb]
      show ((c.maybe_reset now).limit, (c.maybe_reset now).interval) :: ctrSig cs = _
      rw [maybe_reset_limit, maybe_reset_interval]
      rfl

theorem ctrSig_map_mr (cs : List RateCounter) (now : Int) :
    ctrSig (cs.map (fun c => c.maybe_reset now)) = ctrSig cs := by
  induction cs with
  | nil => rfl
  | cons c cs ih =>
    show ((c.maybe_reset now).limit, (c.maybe_reset now).interval)
        :: ctrSig (cs.map (fun c => c.maybe_reset now)) = ctrSig (c :: cs)
    rw [maybe_reset_limit, maybe_reset_interval, ih]
    rfl

theorem ctrSig_increment (cs : List RateCounter) (now : Int) :
    ctrSig (RateCounterPool.increment cs now) = ctrSig cs := by
  induction cs with
  | nil => rfl
  | cons c cs ih =>
    show ((c.increment now).limit, (c.increment now).interval)
        :: ctrSig (RateCounterPool.increment cs now) = ctrSig (c :: cs)
    rw [increment_limit, increment_interval, ih]
    rfl

theorem step_sig {α : Type} (q : TaskQueue α) (op : Op α) :
    ctrSig ((q.step op).rate_counters) = ctrSig q.rate_counters := by
  cases op with
  | put ts =>
    show ctrSig ((q.put ts).1.rate_counters) = _
    rw [put_rate_counters]
  | get n =>
    show ctrSig ((q.get n).1.rate_counters) = _
    by_cases hcd : ((RateCounterPool.can_add q.rate_counters n).2 && !q.queue.isEmpty) = true
    · simp only [TaskQueue.get, hcd, if_true]
      rw [ctrSig_increment, ctrSig_can_add]
    · simp only [Bool.not_eq_true] at hcd
      simp only [TaskQueue.get, hcd, Bool.false_eq_true, if_false]
      rw [ctrSig_can_add]
  | status n =>
    show ctrSig ((q.status n).1.rate_counters) = _
    cases status_counters_cases q n with
    | inl h1 => rw [h1, ctrSig_can_add]
    | inr h1 => rw [h1, ctrSig_map_mr, ctrSig_can_add]

theorem run_sig {α : Type} (ops : List (Op α)) :
    ∀ q : TaskQueue α, ctrSig ((runOps q ops).rate_counters) = ctrSig q.rate_counters := by
  induction ops with
  | nil => intro q; rfl
  | cons op rest ih =>
    intro q
    show ctrSig ((runOps (q.step op) rest).rate_counters) = _
    rw [ih (q.step op), step_sig]

/-- C1 as amended: for every rule `(N, T)` and every trace with
non-decreasing timestamps, any sliding T-second interval contains at most
`2 * N` successful `get()` calls.  The limiter runs fixed windows of
length at least `T` admitting at most `N` calls each, so a sliding
interval straddles at most two of them. -/
theorem sliding_window_two_n_bound
    (rules : List (List Int)) (lim : Option Int) (q0 : TaskQueue Nat)
    (ops : List (Op Nat)) (tb0 : Int) (i : Nat) (N T a : Int)
    (h0 : TaskQueue.mkNew Nat rules lim = some q0)
    (hlb : opsLB tb0 ops = true)
    (hrule : rules.get? i = some [N, T]) :
    (cntIn a T (runEvents q0 ops) : Int) ≤ 2 * N := by
  have hv : rulesValid rules = true := by
    by_contra hv
    simp only [Bool.not_eq_true] at hv
    rw [TaskQueue.mkNew, hv] at h0
    simp at h0
  simp only [TaskQueue.mkNew, hv, if_true, Option.some.injEq] at h0
  have hNT : 0 < N ∧ 0 < T := by
    have hv' := hv
    rw [rulesValid, List.all_eq_true] at hv'
    have hx := hv' [N, T] (List.get?_mem hrule)
    exact ruleOK_fields hx
  subst h0
  have hinv0 : TQInv (⟨[], lim, rules.map mkRateCounter⟩ : TaskQueue Nat) [] tb0 := by
    intro c hc
    simp only [List.mem_map] at hc
    obtain ⟨x, hx, rfl⟩ := hc
    have hxok : ruleOK x = true := by
      rw [rulesValid, List.all_eq_true] at hv
      exact hv x hx
    obtain ⟨hx1, hx2⟩ := ruleOK_fields hxok
    exact ⟨hx1, hx2, rfl, rfl⟩
  obtain ⟨tbf, hinv⟩ := tqinv_run ops _ [] tb0 hinv0 hlb
  rw [List.nil_append] at hinv
  have hsig := run_sig ops (⟨[], lim, rules.map mkRateCounter⟩ : TaskQueue Nat)
  have hq0i : (⟨[], lim, rules.map mkRateCounter⟩ : TaskQueue Nat).rate_counters.get? i
      = some ⟨N, T, 0, none⟩ := by
    show (rules.map mkRateCounter).get? i = _
    rw [List.get?_map, hrule]
    rfl
  have hsigi : (ctrSig (runOps (⟨[], lim, rules.map mkRateCounter⟩ : TaskQueue Nat)
      ops).rate_counters).get? i = some (N, T) := by
    rw [hsig]
    rw [ctrSig, List.get?_map, hq0i]
    rfl
  rw [ctrSig, List.get?_map] at hsigi
  cases hci : (runOps (⟨[], lim, rules.map mkRateCounter⟩ : TaskQueue Nat)
      ops).rate_counters.get? i with
  | none =>
    rw [hci] at hsigi
    simp at hsigi
  | some c =>
    rw [hci] at hsigi
    simp only [Option.map_some', Option.some.injEq, Prod.mk.injEq] at hsigi
    obtain ⟨hcl, hcivl⟩ := hsigi
    have hcmem := List.get?_mem hci
    obtain ⟨h1, h2, h3⟩ := hinv c hcmem
    cases hcs : c.start with
    | none =>
      simp only [hcs] at h3
      rw [h3.1]
      show ((cntIn a T [] : Nat) : Int) ≤ 2 * N
      rw [cntIn]
      simp only [List.countP_nil, Nat.cast_zero]
      omega
    | some s =>
      simp only [hcs] at h3
      obtain ⟨cur, past, hp, hcount, hb, hstb, hcur⟩ := h3
      have heq : cntIn a T (runEvents (⟨[], lim, rules.map mkRateCounter⟩ : TaskQueue Nat) ops)
          = cntIn a T (blockTimes ((s, cur) :: past)) := by
        rw [blockTimes_cons2]
        exact cntIn_perm hp
      rw [heq]
      have hbound := rblocks_cnt (T := c.interval) (N := c.limit)
        (by rw [hcivl]; exact hNT.2) (by rw [hcl]; exact le_of_lt hNT.1)
        ((s, cur) :: past) hb a
      rw [hcl, hcivl] at hbound
      exact hbound

/-- Witness for `sliding_window_two_n_bound`: the counterexample trace for
rule `(2, 10)` stays within the proved bound (3 of 4 gets in a sliding
window, at most `2 * 2`). -/
theorem sliding_window_two_n_bound_witness :
    (cntIn 12 10 (runEvents (⟨[], none, [⟨2, 10, 0, none⟩]⟩ : TaskQueue Nat)
      [Op.put [0, 1, 2, 3], Op.get 10, Op.get 19, Op.get 20, Op.get 21]) : Int) ≤ 2 * 2 :=
  sliding_window_two_n_bound [[2, 10]] none ⟨[], none, [⟨2, 10, 0, none⟩]⟩
    [Op.put [0, 1, 2, 3], Op.get 10, Op.get 19, Op.get 20, Op.get 21] 0 0 2 10 12
    (by decide) (by decide) (by decide)
